import Mathlib

/-!
Verification development for the `owl` web-console repository
(single source file `owl/app.py`).

The Python source is shallowly embedded below.  Strings are modelled as
`List Char` (`Str`), Python `None`-returning functions return `Option`,
Python exceptions are modelled with `Except PyErr`, and the process /
clock / relay-thread environment of `run_script` is modelled as an
explicit schedule of loop-iteration observations.
-/

namespace Owl

/-- Python strings are modelled as lists of characters. -/
abbrev Str := List Char

/-- Coerce a Lean string literal to the `Str` model. -/
def str (s : String) : Str := s.data

/-- The whitespace characters stripped by Python's `str.strip()`:
space, tab, newline, carriage return, vertical tab, form feed. -/
def isPySpace (c : Char) : Bool :=
  c == ' ' || c == '\t' || c == '\n' || c == '\r' ||
  c == Char.ofNat 11 || c == Char.ofNat 12

/-- Left part of Python `str.strip()`: drop leading whitespace. -/
def lstrip (s : Str) : Str := s.dropWhile isPySpace

/-- Right part of Python `str.strip()`: drop trailing whitespace. -/
def rstrip (s : Str) : Str := (s.reverse.dropWhile isPySpace).reverse

/-- Python `str.strip()`. -/
def pystrip (s : Str) : Str := rstrip (lstrip s)

/-- Python's substring test `tok in s`. -/
def hasSubstr (s tok : Str) : Bool :=
  tok.isPrefixOf s ||
    match s with
    | [] => false
    | _ :: s' => hasSubstr s' tok

/-- Split `s` at the first occurrence of `tok`
(the two components of Python `s.split(tok, 1)` when `tok` occurs);
`none` when `tok` does not occur in `s`. -/
def splitFirst (s tok : Str) : Option (Str × Str) :=
  if tok.isPrefixOf s then some ([], s.drop tok.length)
  else
    match s with
    | [] => none
    | c :: s' => (splitFirst s' tok).map (fun p => (c :: p.1, p.2))

/-- The text after the first occurrence of `tok` in `s`
(Python `s.split(tok, 1)[1]`; only called when `tok in s`). -/
def afterFirst (s tok : Str) : Str :=
  match splitFirst s tok with
  | some p => p.2
  | none => []

/-- The answer marker scanned for by `extract_answer`. -/
def answerTok : Str := str "Answer:"

/-- Embedding of `extract_answer` (app.py lines 234-241): scan the log
lines in order; on the first line containing `"Answer:"`, return the
text after the first occurrence of the marker, stripped; the initial
value `""` is returned when no line matches. -/
def extract_answer : List Str → Str
  | [] => []
  | log :: rest =>
    if hasSubstr log answerTok then pystrip (afterFirst log answerTok)
    else extract_answer rest

/-- Embedding of the Python `str(int)` conversion used by the f-string in
`status_message`. -/
def intToStr (i : Int) : Str :=
  if i < 0 then '-' :: Nat.toDigits 10 i.natAbs else Nat.toDigits 10 i.natAbs

/-- Embedding of `status_message` (app.py lines 225-232), as a function of
the result of `process.poll()` (`none` while the process is alive,
`some code` once it has exited). -/
def status_message (poll : Option Int) : Str :=
  match poll with
  | none => str "⏳ 正在运行..."
  | some code =>
    if code = 0 then str "✅ 执行成功"
    else str "❌ 执行失败 (返回码: " ++ intToStr code ++ str ")"

/-! ### JSON values and a model of `json.loads`

`extract_chat_history` calls `json.loads` on the assembled fragment.  We
model JSON values and a recursive-descent parser for the JSON grammar
(whitespace-tolerant; objects follow Python-`dict` semantics: insertion
order with a later duplicate key overwriting the earlier entry in
place).  Numbers are modelled as integers only and `\\u` string escapes
are not modelled; no claim depends on either. -/

inductive Json where
  | null : Json
  | bool : Bool → Json
  | num : Int → Json
  | str : Str → Json
  | arr : List Json → Json
  | obj : List (Str × Json) → Json

/-- Python-`dict` insert: overwrite the entry in place when the key is
present, otherwise append. -/
def dinsert {α : Type} (m : List (Str × α)) (k : Str) (v : α) : List (Str × α) :=
  if m.any (fun kv => kv.1 == k) then
    m.map (fun kv => if kv.1 == k then (kv.1, v) else kv)
  else m ++ [(k, v)]

/-- Python-`dict` lookup. -/
def dget? {α : Type} (m : List (Str × α)) (k : Str) : Option α :=
  match m with
  | [] => none
  | kv :: m' => if kv.1 == k then some kv.2 else dget? m' k

/-- JSON inter-token whitespace. -/
def isJsonWs (c : Char) : Bool :=
  c == ' ' || c == '\t' || c == '\n' || c == '\r'

def skipWs (s : Str) : Str := s.dropWhile isJsonWs

/-- The character denoted by a backslash escape inside a JSON string. -/
def escChar (c : Char) : Option Char :=
  if c = '"' then some '"'
  else if c = '\\' then some '\\'
  else if c = '/' then some '/'
  else if c = 'b' then some (Char.ofNat 8)
  else if c = 'f' then some (Char.ofNat 12)
  else if c = 'n' then some '\n'
  else if c = 'r' then some '\r'
  else if c = 't' then some '\t'
  else none

/-- Parse the body of a JSON string (the opening quote already
consumed), returning the decoded string and the remaining input. -/
def parseStringBody : Str → Option (Str × Str)
  | [] => none
  | c :: rest =>
    if c = '"' then some ([], rest)
    else if c = '\\' then
      match rest with
      | [] => none
      | e :: rest' =>
        match escChar e with
        | some d => (parseStringBody rest').map (fun p => (d :: p.1, p.2))
        | none => none
    else if c.toNat < 32 then none
    else (parseStringBody rest).map (fun p => (c :: p.1, p.2))

def digitsToNat (ds : Str) : Nat :=
  ds.foldl (fun n c => 10 * n + (c.toNat - 48)) 0

/-- A character that would continue an integer numeral into a float. -/
def isFloatMark (c : Char) : Bool := c = '.' || c = 'e' || c = 'E'

/-- Parse an integer numeral (sign already consumed); fail on the float
markers `.`/`e`/`E`, which the model does not cover. -/
def parseIntAfter (neg : Bool) (s : Str) : Option (Json × Str) :=
  let ds := s.takeWhile Char.isDigit
  let rest := s.drop ds.length
  if ds = [] then none
  else if (rest.head?.map isFloatMark).getD false then none
  else
    let val : Int := if neg then -(digitsToNat ds : Int) else (digitsToNat ds : Int)
    some (.num val, rest)

mutual

/-- Parse one JSON value, returning it and the remaining input. -/
def parseVal : Nat → Str → Option (Json × Str)
  | 0, _ => none
  | fuel+1, s =>
    match skipWs s with
    | [] => none
    | c :: rest =>
      if c = '[' then
        match skipWs rest with
        | [] => none
        | d :: t =>
          if d = ']' then some (.arr [], t)
          else (parseItems fuel (d :: t)).map (fun p => (Json.arr p.1, p.2))
      else if c = '{' then
        match skipWs rest with
        | [] => none
        | d :: t =>
          if d = '}' then some (.obj [], t)
          else (parseMemberItems fuel (d :: t) []).map (fun p => (Json.obj p.1, p.2))
      else if c = '"' then
        (parseStringBody rest).map (fun p => (Json.str p.1, p.2))
      else if c = 't' then
        if (str "rue").isPrefixOf rest then some (.bool true, rest.drop 3) else none
      else if c = 'f' then
        if (str "alse").isPrefixOf rest then some (.bool false, rest.drop 4) else none
      else if c = 'n' then
        if (str "ull").isPrefixOf rest then some (.null, rest.drop 3) else none
      else if c = '-' then parseIntAfter true rest
      else if c.isDigit then parseIntAfter false (c :: rest)
      else none

/-- Parse one or more comma-separated array items and the closing `]`. -/
def parseItems : Nat → Str → Option (List Json × Str)
  | 0, _ => none
  | fuel+1, s =>
    match parseVal fuel s with
    | none => none
    | some (v, r) =>
      match skipWs r with
      | [] => none
      | d :: r' =>
        if d = ',' then (parseItems fuel r').map (fun p => (v :: p.1, p.2))
        else if d = ']' then some ([v], r')
        else none

/-- Parse one or more object members and the closing `}`, accumulating a
Python `dict` (duplicate keys overwrite in place). -/
def parseMemberItems : Nat → Str → List (Str × Json) → Option (List (Str × Json) × Str)
  | 0, _, _ => none
  | fuel+1, s, acc =>
    match skipWs s with
    | [] => none
    | c :: r =>
      if c = '"' then
        match parseStringBody r with
        | none => none
        | some (k, r₂) =>
          match skipWs r₂ with
          | [] => none
          | e :: r₃ =>
            if e = ':' then
              match parseVal fuel r₃ with
              | none => none
              | some (v, r₄) =>
                match skipWs r₄ with
                | [] => none
                | g :: r₅ =>
                  if g = ',' then parseMemberItems fuel r₅ (dinsert acc k v)
                  else if g = '}' then some (dinsert acc k v, r₅)
                  else none
            else none
      else none

end

/-- Model of `json.loads`: parse one value and require only whitespace
to remain; `none` models `json.JSONDecodeError`. -/
def loads (s : Str) : Option Json :=
  match parseVal (2 * s.length + 2) s with
  | some (v, r) => if skipWs r = [] then some v else none
  | none => none

/-! ### Embedding of `extract_chat_history` (app.py lines 243-274)

Python exceptions inside the outer `try` are modelled with
`Except PyErr`; the outer `except Exception: pass` is the final `match`
in `extract_chat_history`.  The Python loop indexes `logs` with `i` and
scans `logs[i+1 : min(i+10, len(logs))]` for the closing bracket; the
embedding recurses over the suffix of `logs`, on which that window is
`rest.take 9` and the guard `i+1 < len(logs)` is `rest ≠ []`. -/

inductive PyErr where
  | typeError : PyErr
  | keyError : PyErr
  | indexError : PyErr
deriving DecidableEq

abbrev Transcript := List (Str × Json)

/-- Python iteration `for msg in chat_data` over a decoded JSON value:
lists yield their elements, dicts their keys, strings their characters;
anything else raises `TypeError`. -/
def pyIter : Json → Except PyErr (List Json)
  | .arr xs => .ok xs
  | .obj fields => .ok (fields.map (fun kv => Json.str kv.1))
  | .str s => .ok (s.map (fun c => Json.str [c]))
  | _ => .error .typeError

/-- Python `x == "lit"` for a decoded JSON value `x`. -/
def jsonEqPyStr : Json → Str → Bool
  | .str t, n => t == n
  | _, _ => false

/-- Python `needle in msg` for a decoded JSON value `msg`: key test for
dicts, substring test for strings, element equality for lists;
`TypeError` otherwise. -/
def pyContains (j : Json) (needle : Str) : Except PyErr Bool :=
  match j with
  | .obj fields => .ok (fields.any (fun kv => kv.1 == needle))
  | .str s => .ok (hasSubstr s needle)
  | .arr xs => .ok (xs.any (fun x => jsonEqPyStr x needle))
  | _ => .error .typeError

/-- Python `msg[key]`: dict lookup (`KeyError` when absent);
`TypeError` on any non-dict. -/
def pyIndex (j : Json) (key : Str) : Except PyErr Json :=
  match j with
  | .obj fields =>
    match dget? fields key with
    | some v => .ok v
    | none => .error .keyError
  | _ => .error .typeError

/-- `"用户" if msg["role"] == "user" else "助手"`. -/
def roleLabel (r : Json) : Str :=
  if jsonEqPyStr r (str "user") then str "用户" else str "助手"

/-- The message-formatting loop of `extract_chat_history`. -/
def formatChat : List Json → Except PyErr Transcript
  | [] => .ok []
  | m :: ms => do
    let hasRole ← pyContains m (str "role")
    if hasRole then do
      let hasContent ← pyContains m (str "content")
      if hasContent then do
        let r ← pyIndex m (str "role")
        let c ← pyIndex m (str "content")
        let rest ← formatChat ms
        .ok ((roleLabel r, c) :: rest)
      else formatChat ms
    else formatChat ms

/-- The transcript marker. -/
def chMarker : Str := str "chat_history"

/-- Python `s.find(c)` for a single character: the first index at which
`p` holds, `none` modelling the `-1` result. -/
def findIdxCh (p : Char → Bool) : Str → Option Nat
  | [] => none
  | c :: s => if p c then some 0 else (findIdxCh p s).map (· + 1)

/-- The continuation scan: over at most the next 9 lines, find the first
line containing `]` and return its prefix up to and including that first
`]`; intermediate lines without `]` are skipped entirely. -/
def scanClose : List Str → Option Str
  | [] => none
  | l :: ls =>
    match findIdxCh (fun c => c == ']') l with
    | some k => some (l.take (k+1))
    | none => scanClose ls

/-- The scanning loop of `extract_chat_history` over the log lines. -/
def chLoop : List Str → Except PyErr (Option Transcript)
  | [] => .ok none
  | log :: rest =>
    if hasSubstr log chMarker then
      match findIdxCh (fun c => c == '[') log with
      | none => chLoop rest
      | some idx =>
        let json0 := pystrip (log.drop idx)
        match json0.getLast? with
        | none => .error .indexError
        | some last =>
          let json1 :=
            if last ≠ ']' ∧ rest ≠ [] then
              match scanClose (rest.take 9) with
              | some app => json0 ++ app
              | none => json0
            else json0
          match loads json1 with
          | none => chLoop rest
          | some chat_data => do
            let msgs ← pyIter chat_data
            let t ← formatChat msgs
            .ok (some t)
    else chLoop rest

/-- Embedding of `extract_chat_history`: the outer
`try ... except Exception: pass` absorbs every error into the absent
result `none`. -/
def extract_chat_history (logs : List Str) : Option Transcript :=
  match chLoop logs with
  | .ok r => r
  | .error _ => none

/-- The (speaker, content) pair produced by the formatting loop for a
message object whose `role` and `content` keys are present. -/
def msgPair (j : Json) : Str × Json :=
  match j with
  | .obj fields =>
    (roleLabel ((dget? fields (str "role")).getD .null),
     (dget? fields (str "content")).getD .null)
  | _ => ([], .null)

/-! ### Embedding of `run_script` (app.py lines 130-223)

The process, the wall clock and the relay thread are modelled as an
explicit schedule: one `Iter` per iteration of the polling loop, giving
the result of `current_process.poll()` at the loop head, the elapsed
wall-clock value `time.time() - start_time` compared against the
1800-time-unit budget, and the lines the relay pushed onto the queue
since the previous drain.  `termPoll` is the poll result seen by the
final `status_message` after a watchdog `terminate()`; `tail` is what
the relay pushes between loop exit and the final drain.  The model
returns `none` when the schedule is exhausted while the process still
runs (such a run never reaches the final snapshot). -/

/-- One emitted (or final) 5-tuple of `run_script`:
status text, extracted answer, full log text, log file path, optional
transcript. -/
structure Snapshot where
  status : Str
  answer : Str
  logText : Str
  logFile : Str
  chat : Option Transcript

/-- One iteration of the polling loop, as observed by the driver. -/
structure Iter where
  poll : Option Int
  elapsed : Nat
  newLines : List Str

/-- The yielded snapshots, the returned final snapshot, and whether a
child process was spawned. -/
structure RunResult where
  snapshots : List Snapshot
  final : Snapshot
  spawned : Bool

/-- The log line recorded by the watchdog (`log_queue.put`). -/
def timeoutMsg : Str := str "执行超时，已终止进程\n"

/-- The validation-failure status returned for an empty question. -/
def validationMsg : Str := str "请输入问题！"

/-- The loop of `run_script`: drain-or-terminate per iteration, then the
final drain, transcript extraction and final 5-tuple. -/
def runLoop (logFile : Str) (termPoll : Option Int) (tail : List Str) :
    List Iter → List Str → List Str → List Snapshot → Option RunResult
  | [], _, _, _ => none
  | it :: rest, queued, logs, snaps =>
    let q := queued ++ it.newLines
    match it.poll with
    | some c =>
      some ⟨snaps,
        ⟨status_message (some c), extract_answer (logs ++ q ++ tail),
         (logs ++ q ++ tail).flatten, logFile, extract_chat_history (logs ++ q ++ tail)⟩,
        true⟩
    | none =>
      if it.elapsed > 1800 then
        some ⟨snaps,
          ⟨status_message termPoll,
           extract_answer (logs ++ (q ++ [timeoutMsg]) ++ tail),
           (logs ++ (q ++ [timeoutMsg]) ++ tail).flatten, logFile,
           extract_chat_history (logs ++ (q ++ [timeoutMsg]) ++ tail)⟩,
          true⟩
      else
        runLoop logFile termPoll tail rest []
          (logs ++ q)
          (snaps ++ [⟨status_message none, extract_answer (logs ++ q),
            (logs ++ q).flatten, logFile, none⟩])

/-- Embedding of `run_script`: an empty/whitespace-only question returns
the validation 5-tuple immediately without spawning; otherwise the
process is spawned and the polling loop runs over the schedule. -/
def run_script (question logFile : Str) (iters : List Iter) (termPoll : Option Int)
    (tail : List Str) : Option RunResult :=
  if pystrip question = [] then
    some ⟨[], ⟨validationMsg, [], [], [], none⟩, false⟩
  else runLoop logFile termPoll tail iters [] [] []

/-! ### Embedding of the environment-variable store
(app.py lines 43-59, 65-76, 78-104)

The `.env` file is a list of newline-free lines; `os.environ` is a
Python `dict` from names to values. -/

/-- The variable groups of `ENV_GROUPS` (names only; labels and widget
types are presentation-layer data not used by the claims). -/
def ENV_GROUPS : List (Str × List Str) :=
  [(str "模型API", [str "OPENAI_API_KEY", str "OPENAI_API_BASE_URL",
      str "QWEN_API_KEY", str "DEEPSEEK_API_KEY"]),
   (str "搜索工具", [str "GOOGLE_API_KEY", str "SEARCH_ENGINE_ID"]),
   (str "其他工具", [str "HF_TOKEN", str "CHUNKR_API_KEY", str "FIRECRAWL_API_KEY"])]

/-- All configured variable names, in display order. -/
def envGroupNames : List Str := (ENV_GROUPS.map (fun g => g.2)).flatten

/-- The reading loop of `save_env_vars`: one line of the existing `.env`
file becomes a (key, value) entry when, after stripping, it is
non-empty, does not start with `#`, and contains `=`; key and value are
the stripped halves around the first `=`. -/
def parseEnvLine (line : Str) : Option (Str × Str) :=
  let l := pystrip line
  if l = [] then none
  else if ['#'].isPrefixOf l then none
  else
    match splitFirst l ['='] with
    | some kv => some (pystrip kv.1, pystrip kv.2)
    | none => none

/-- Read a `.env` file into a Python `dict` (later duplicate keys
overwrite in place). -/
def parseEnvFile (lines : List Str) : List (Str × Str) :=
  lines.foldl (fun m line =>
    match parseEnvLine line with
    | some kv => dinsert m kv.1 kv.2
    | none => m) []

/-- Embedding of `save_env_vars`: read the existing file, merge the
non-empty submitted values into it and into `os.environ`, and rewrite
the file as bare `key=value` lines in dict order.  Returns the new file
contents and the new environment. -/
def save_env_vars (file : List Str) (environ : List (Str × Str))
    (sub : List (Str × Str)) : List Str × List (Str × Str) :=
  let existing := parseEnvFile file
  let existing' := sub.foldl
    (fun m kv => if kv.2 ≠ [] then dinsert m kv.1 kv.2 else m) existing
  let environ' := sub.foldl
    (fun m kv => if kv.2 ≠ [] then dinsert m kv.1 kv.2 else m) environ
  (existing'.map (fun kv => kv.1 ++ '=' :: kv.2), environ')

/-- Embedding of `load_env_vars`: `dotenv.load_dotenv()` loads the
`.env` entries into `os.environ` without overriding keys already
present (python-dotenv's default `override=False`), then every
configured name is read from the environment with `""` as default. -/
def load_env_vars (file : List Str) (environ : List (Str × Str)) : List (Str × Str) :=
  let environ' := (parseEnvFile file).foldl
    (fun m kv => if m.any (fun e => e.1 == kv.1) then m else m ++ [kv]) environ
  envGroupNames.map (fun n => (n, (dget? environ' n).getD []))

/-! ### Basic lemmas about the string model -/

theorem isPySpace_of_isJsonWs {c : Char} (h : isJsonWs c = true) : isPySpace c = true := by
  simp only [isJsonWs, Bool.or_eq_true, beq_iff_eq] at h
  rcases h with ((h | h) | h) | h <;> subst h <;> decide

theorem getLast?_eq_some_decomp {l : Str} {c : Char} (h : l.getLast? = some c) :
    ∃ init, l = init ++ [c] := by
  rcases l with _ | ⟨a, as⟩
  · simp at h
  · exact ⟨_, (List.dropLast_append_getLast? c h).symm⟩

theorem skipWs_cons_of_not_ws {c : Char} (x : Str) (h : isJsonWs c = false) :
    skipWs (c :: x) = c :: x := by
  unfold skipWs
  rw [List.dropWhile_cons, if_neg (by simp [h])]

theorem lstrip_cons_of_not_space {c : Char} (x : Str) (h : isPySpace c = false) :
    lstrip (c :: x) = c :: x := by
  unfold lstrip
  rw [List.dropWhile_cons, if_neg (by simp [h])]

theorem rstrip_of_getLast_not_space {l : Str} {c : Char}
    (hl : l.getLast? = some c) (h : isPySpace c = false) : rstrip l = l := by
  obtain ⟨init, rfl⟩ := getLast?_eq_some_decomp hl
  unfold rstrip
  rw [List.reverse_append]
  simp only [List.reverse_cons, List.reverse_nil, List.nil_append, List.singleton_append]
  rw [List.dropWhile_cons, if_neg (by simp [h])]
  simp

theorem pystrip_eq_self_of_ends {l : Str} {a b : Char}
    (hh : l.head? = some a) (ha : isPySpace a = false)
    (hl : l.getLast? = some b) (hb : isPySpace b = false) : pystrip l = l := by
  rcases l with _ | ⟨c, cs⟩
  · simp at hh
  · have hac : c = a := by simpa using hh
    subst hac
    unfold pystrip
    rw [lstrip_cons_of_not_space _ ha]
    exact rstrip_of_getLast_not_space hl hb

theorem lstrip_eq_self_of_pystrip {l : Str} (hs : pystrip l = l) : lstrip l = l := by
  have hsuf : lstrip l <:+ l := List.dropWhile_suffix _
  have hlen1 : l.length ≤ (lstrip l).length := by
    conv_lhs => rw [← hs]
    unfold pystrip rstrip
    calc ((lstrip l).reverse.dropWhile isPySpace).reverse.length
        = ((lstrip l).reverse.dropWhile isPySpace).length := by simp
      _ ≤ (lstrip l).reverse.length := (List.dropWhile_suffix _).sublist.length_le
      _ = (lstrip l).length := by simp
  have hlen2 : (lstrip l).length ≤ l.length := hsuf.sublist.length_le
  exact hsuf.eq_of_length (le_antisymm hlen2 hlen1)

theorem stripped_getLast_not_space {l : Str} {c : Char}
    (hs : pystrip l = l) (hl : l.getLast? = some c) : isPySpace c = false := by
  cases hb : isPySpace c with
  | false => rfl
  | true =>
    exfalso
    have h1 : lstrip l = l := lstrip_eq_self_of_pystrip hs
    have h2 : rstrip l = l := by
      have := hs
      unfold pystrip at this
      rwa [h1] at this
    obtain ⟨init, rfl⟩ := getLast?_eq_some_decomp hl
    unfold rstrip at h2
    rw [List.reverse_append] at h2
    simp only [List.reverse_cons, List.reverse_nil, List.nil_append,
      List.singleton_append] at h2
    rw [List.dropWhile_cons, if_pos (by simp [hb])] at h2
    have hlen := congrArg List.length h2
    simp only [List.length_reverse, List.length_append, List.length_singleton] at hlen
    have : (init.reverse.dropWhile isPySpace).length ≤ init.length := by
      calc (init.reverse.dropWhile isPySpace).length
          ≤ init.reverse.length := (List.dropWhile_suffix _).sublist.length_le
        _ = init.length := by simp
    omega

theorem skipWs_eq_nil_all_ws {r : Str} (h : skipWs r = []) :
    ∀ x ∈ r, isJsonWs x = true := by
  intro x hx
  have hdecomp := List.takeWhile_append_dropWhile isJsonWs r
  unfold skipWs at h
  rw [h, List.append_nil] at hdecomp
  rw [← hdecomp] at hx
  exact List.mem_takeWhile_imp hx

theorem exists_append_drop (l : Str) (n : Nat) : l = l.take n ++ l.drop n :=
  (List.take_append_drop n l).symm

/-! ### Consumption lemmas for the JSON parser -/

theorem parseStringBody_suffix : ∀ (n : Nat) (s : Str), s.length ≤ n →
    ∀ p r, parseStringBody s = some (p, r) → ∃ q, s = q ++ r := by
  intro n
  induction n with
  | zero =>
    intro s hs p r hp
    rw [List.length_eq_zero.mp (Nat.le_zero.mp hs)] at hp
    simp [parseStringBody] at hp
  | succ n ih =>
    intro s hs p r hp
    cases s with
    | nil => simp [parseStringBody] at hp
    | cons c rest =>
      unfold parseStringBody at hp
      by_cases h1 : c = '"'
      · rw [if_pos h1] at hp
        injection hp with h
        injection h with hp1 hp2
        subst hp2
        exact ⟨[c], rfl⟩
      · rw [if_neg h1] at hp
        by_cases h2 : c = '\\'
        · rw [if_pos h2] at hp
          cases rest with
          | nil => exact absurd hp (by simp)
          | cons e rest' =>
            have hp' : (match escChar e with
                | some d => Option.map (fun p => (d :: p.1, p.2)) (parseStringBody rest')
                | none => none) = some (p, r) := hp
            cases he : escChar e with
            | none => rw [he] at hp'; exact absurd hp' (by simp)
            | some d =>
              rw [he] at hp'
              cases hps : parseStringBody rest' with
              | none => rw [hps] at hp'; exact absurd hp' (by simp)
              | some pr =>
                rw [hps] at hp'
                injection hp' with h
                injection h with hp1 hp2
                obtain ⟨q, hq⟩ := ih rest' (by simp at hs; omega) pr.1 pr.2
                  (by rw [hps])
                subst hp2
                exact ⟨c :: e :: q, by rw [List.cons_append, List.cons_append, ← hq]⟩
        · rw [if_neg h2] at hp
          by_cases h3 : c.toNat < 32
          · rw [if_pos h3] at hp; exact absurd hp (by simp)
          · rw [if_neg h3] at hp
            cases hps : parseStringBody rest with
            | none => rw [hps] at hp; exact absurd hp (by simp)
            | some pr =>
              rw [hps] at hp
              injection hp with h
              injection h with hp1 hp2
              obtain ⟨q, hq⟩ := ih rest (by simp at hs; omega) pr.1 pr.2 (by rw [hps])
              subst hp2
              exact ⟨c :: q, by rw [List.cons_append, ← hq]⟩

theorem getLast?_concat_chain (x y : Str) (d : Char) (p1 : Str) (h : p1 ≠ []) :
    (x ++ (y ++ d :: p1)).getLast? = p1.getLast? := by
  rw [List.getLast?_append_of_ne_nil _ (by simp),
    List.getLast?_append_of_ne_nil _ (by simp),
    show d :: p1 = [d] ++ p1 from rfl, List.getLast?_append_of_ne_nil _ h]

theorem parseIntAfter_suffix (neg : Bool) (s : Str) (j : Json) (r : Str)
    (h : parseIntAfter neg s = some (j, r)) : ∃ q, s = q ++ r := by
  simp only [parseIntAfter] at h
  by_cases hds : s.takeWhile Char.isDigit = []
  · rw [if_pos hds] at h; exact absurd h (by simp)
  · rw [if_neg hds] at h
    by_cases hfm : (((s.drop (s.takeWhile Char.isDigit).length).head?.map
        isFloatMark).getD false) = true
    · rw [if_pos hfm] at h; exact absurd h (by simp)
    · rw [if_neg hfm] at h
      injection h with h'
      injection h' with h1 h2
      subst h2
      exact ⟨_, exists_append_drop s _⟩

/-- Every successful parse consumes a prefix of its input; a parsed
array-item list consumes a prefix ending in the closing `]`. -/
theorem parse_consume (fuel : Nat) :
    (∀ s v r, parseVal fuel s = some (v, r) → ∃ p, s = p ++ r ∧
      (∀ f'', skipWs s = '[' :: f'' → p.getLast? = some ']')) ∧
    (∀ s vs r, parseItems fuel s = some (vs, r) →
      ∃ p, s = p ++ r ∧ p.getLast? = some ']') ∧
    (∀ s acc ms r, parseMemberItems fuel s acc = some (ms, r) → ∃ p, s = p ++ r) := by
  induction fuel with
  | zero =>
    refine ⟨?_, ?_, ?_⟩
    · intro s v r hp; simp [parseVal] at hp
    · intro s vs r hp; simp [parseItems] at hp
    · intro s acc ms r hp; simp [parseMemberItems] at hp
  | succ f ih =>
    obtain ⟨ihv, ihi, ihm⟩ := ih
    have hdecomp : ∀ X : Str, X = X.takeWhile isJsonWs ++ skipWs X := fun X => by
      unfold skipWs
      exact (List.takeWhile_append_dropWhile _ _).symm
    refine ⟨?_, ?_, ?_⟩
    · intro s v r hp
      unfold parseVal at hp
      split at hp
      · exact absurd hp (by simp)
      · rename_i c rest heq
        have hs1 := hdecomp s
        rw [heq] at hs1
        split_ifs at hp with hbrack hbrace hquote ht htrue hf hfalse hn hnull hneg hdig
        · -- array branch
          split at hp
          · exact absurd hp (by simp)
          · rename_i d t heq2
            have hs2 := hdecomp rest
            rw [heq2] at hs2
            rw [hs2] at hs1
            split_ifs at hp with hd
            · injection hp with h
              injection h with hp1 hp2
              subst hp2
              subst hd
              refine ⟨s.takeWhile isJsonWs ++ c :: (rest.takeWhile isJsonWs ++ [']']), ?_, ?_⟩
              · conv_lhs => rw [hs1]
                simp
              · intro f'' hsk
                rw [show s.takeWhile isJsonWs ++ c :: (rest.takeWhile isJsonWs ++ [']'])
                    = (s.takeWhile isJsonWs ++ c :: rest.takeWhile isJsonWs) ++ [']']
                    from by simp,
                  List.getLast?_append_of_ne_nil _ (by simp)]
                rfl
            · rcases hpi : parseItems f (d :: t) with _ | pr
              · rw [hpi] at hp; exact absurd hp (by simp)
              · rw [hpi] at hp
                injection hp with h
                injection h with hp1 hp2
                subst hp2
                obtain ⟨p2, hp2, hend⟩ := ihi (d :: t) pr.1 pr.2 (by rw [hpi])
                have hp2ne : p2 ≠ [] := by
                  intro hc
                  rw [hc] at hend
                  simp at hend
                refine ⟨s.takeWhile isJsonWs ++ c :: (rest.takeWhile isJsonWs ++ p2), ?_, ?_⟩
                · conv_lhs => rw [hs1, hp2]
                  simp
                · intro f'' hsk
                  rw [show s.takeWhile isJsonWs ++ c :: (rest.takeWhile isJsonWs ++ p2)
                      = (s.takeWhile isJsonWs ++ c :: rest.takeWhile isJsonWs) ++ p2
                      from by simp,
                    List.getLast?_append_of_ne_nil _ hp2ne]
                  exact hend
        · -- object branch
          split at hp
          · exact absurd hp (by simp)
          · rename_i d t heq2
            have hs2 := hdecomp rest
            rw [heq2] at hs2
            rw [hs2] at hs1
            split_ifs at hp with hd
            · injection hp with h
              injection h with hp1 hp2
              subst hp2
              refine ⟨s.takeWhile isJsonWs ++ c :: (rest.takeWhile isJsonWs ++ [d]), ?_, ?_⟩
              · conv_lhs => rw [hs1]
                simp
              · intro f'' hsk
                rw [heq] at hsk
                exact absurd (List.cons_eq_cons.mp hsk).1 hbrack
            · rcases hpi : parseMemberItems f (d :: t) [] with _ | pr
              · rw [hpi] at hp; exact absurd hp (by simp)
              · rw [hpi] at hp
                injection hp with h
                injection h with hp1 hp2
                subst hp2
                obtain ⟨p2, hp2⟩ := ihm (d :: t) [] pr.1 pr.2 (by rw [hpi])
                refine ⟨s.takeWhile isJsonWs ++ c :: (rest.takeWhile isJsonWs ++ p2), ?_, ?_⟩
                · conv_lhs => rw [hs1, hp2]
                  simp
                · intro f'' hsk
                  rw [heq] at hsk
                  exact absurd (List.cons_eq_cons.mp hsk).1 hbrack
        · -- string branch
          rcases hps : parseStringBody rest with _ | pr
          · rw [hps] at hp; exact absurd hp (by simp)
          · rw [hps] at hp
            injection hp with h
            injection h with hp1 hp2
            subst hp2
            obtain ⟨q, hq⟩ := parseStringBody_suffix rest.length rest (le_refl _)
              pr.1 pr.2 (by rw [hps])
            refine ⟨s.takeWhile isJsonWs ++ c :: q, ?_, ?_⟩
            · conv_lhs => rw [hs1, hq]
              simp
            · intro f'' hsk
              rw [heq] at hsk
              exact absurd (List.cons_eq_cons.mp hsk).1 hbrack
        · -- true literal
          injection hp with h
          injection h with hp1 hp2
          subst hp2
          refine ⟨s.takeWhile isJsonWs ++ c :: rest.take 3, ?_, ?_⟩
          · conv_lhs => rw [hs1, exists_append_drop rest 3]
            simp
          · intro f'' hsk
            rw [heq] at hsk
            exact absurd (List.cons_eq_cons.mp hsk).1 hbrack
        · -- false literal
          injection hp with h
          injection h with hp1 hp2
          subst hp2
          refine ⟨s.takeWhile isJsonWs ++ c :: rest.take 4, ?_, ?_⟩
          · conv_lhs => rw [hs1, exists_append_drop rest 4]
            simp
          · intro f'' hsk
            rw [heq] at hsk
            exact absurd (List.cons_eq_cons.mp hsk).1 hbrack
        · -- null literal
          injection hp with h
          injection h with hp1 hp2
          subst hp2
          refine ⟨s.takeWhile isJsonWs ++ c :: rest.take 3, ?_, ?_⟩
          · conv_lhs => rw [hs1, exists_append_drop rest 3]
            simp
          · intro f'' hsk
            rw [heq] at hsk
            exact absurd (List.cons_eq_cons.mp hsk).1 hbrack
        · -- negative number
          obtain ⟨q, hq⟩ := parseIntAfter_suffix true rest v r hp
          refine ⟨s.takeWhile isJsonWs ++ c :: q, ?_, ?_⟩
          · conv_lhs => rw [hs1, hq]
            simp
          · intro f'' hsk
            rw [heq] at hsk
            exact absurd (List.cons_eq_cons.mp hsk).1 hbrack
        · -- positive number
          obtain ⟨q, hq⟩ := parseIntAfter_suffix false (c :: rest) v r hp
          refine ⟨s.takeWhile isJsonWs ++ q, ?_, ?_⟩
          · conv_lhs => rw [hs1, hq]
            simp
          · intro f'' hsk
            rw [heq] at hsk
            exact absurd (List.cons_eq_cons.mp hsk).1 hbrack
    · intro s vs r hp
      unfold parseItems at hp
      split at hp
      · exact absurd hp (by simp)
      · rename_i v0 r0 heqv
        obtain ⟨p0, hp0, -⟩ := ihv s v0 r0 heqv
        split at hp
        · exact absurd hp (by simp)
        · rename_i d r' heq2
          have hr0 := hdecomp r0
          rw [heq2] at hr0
          split_ifs at hp with hcomma hclose
          · rcases hpi : parseItems f r' with _ | pr
            · rw [hpi] at hp; exact absurd hp (by simp)
            · rw [hpi] at hp
              injection hp with h
              injection h with hp1 hp2
              subst hp2
              obtain ⟨p1, hp1', hend⟩ := ihi r' pr.1 pr.2 (by rw [hpi])
              have hp1ne : p1 ≠ [] := by
                intro hc
                rw [hc] at hend
                simp at hend
              refine ⟨p0 ++ (r0.takeWhile isJsonWs ++ d :: p1), ?_, ?_⟩
              · conv_lhs => rw [hp0, hr0, hp1']
                simp
              · rw [getLast?_concat_chain _ _ _ _ hp1ne]
                exact hend
          · injection hp with h
            injection h with hp1 hp2
            subst hp2
            subst hclose
            refine ⟨p0 ++ (r0.takeWhile isJsonWs ++ [']']), ?_, ?_⟩
            · conv_lhs => rw [hp0, hr0]
              simp
            · rw [List.getLast?_append_of_ne_nil _ (by simp),
                List.getLast?_append_of_ne_nil _ (by simp)]
              rfl
    · intro s acc ms r hp
      unfold parseMemberItems at hp
      split at hp
      · exact absurd hp (by simp)
      · rename_i c r1 heq
        have hs1 := hdecomp s
        rw [heq] at hs1
        split_ifs at hp with hquote
        · split at hp
          · exact absurd hp (by simp)
          · rename_i k r₂ heqs
            obtain ⟨qs, hqs⟩ := parseStringBody_suffix r1.length r1 (le_refl _)
              k r₂ heqs
            split at hp
            · exact absurd hp (by simp)
            · rename_i e r₃ heq3
              have hr2 := hdecomp r₂
              rw [heq3] at hr2
              split_ifs at hp with hcolon
              · split at hp
                · exact absurd hp (by simp)
                · rename_i v r₄ heqv
                  obtain ⟨pv, hpv, -⟩ := ihv r₃ v r₄ heqv
                  split at hp
                  · exact absurd hp (by simp)
                  · rename_i g r₅ heq5
                    have hr4 := hdecomp r₄
                    rw [heq5] at hr4
                    split_ifs at hp with hg hg2
                    · obtain ⟨pm, hpm⟩ := ihm r₅ (dinsert acc k v) ms r hp
                      refine ⟨s.takeWhile isJsonWs ++ c ::
                        (qs ++ (r₂.takeWhile isJsonWs ++ e ::
                          (pv ++ (r₄.takeWhile isJsonWs ++ g :: pm)))), ?_⟩
                      conv_lhs => rw [hs1, hqs, hr2, hpv, hr4, hpm]
                      simp
                    · injection hp with h
                      injection h with hp1 hp2
                      subst hp2
                      refine ⟨s.takeWhile isJsonWs ++ c ::
                        (qs ++ (r₂.takeWhile isJsonWs ++ e ::
                          (pv ++ (r₄.takeWhile isJsonWs ++ [g])))), ?_⟩
                      conv_lhs => rw [hs1, hqs, hr2, hpv, hr4]
                      simp

/-- A value parsed from input starting with `[` consumes a prefix that
ends with the matching `]`. -/
theorem parseVal_bracket (fuel : Nat) (f' : Str) (v : Json) (r : Str)
    (hp : parseVal fuel ('[' :: f') = some (v, r)) :
    ∃ p, '[' :: f' = p ++ r ∧ p.getLast? = some ']' := by
  obtain ⟨p, hp1, hp2⟩ := (parse_consume fuel).1 _ v r hp
  exact ⟨p, hp1, hp2 f' (skipWs_cons_of_not_ws f' (by decide))⟩

/-- `json.loads` fails on a stripped fragment that opens with `[` but
does not end with `]` — the situation left behind when the continuation
scan finds no closing bracket. -/
theorem loads_open_unclosed {f' : Str} {lc : Char}
    (hstrip : pystrip ('[' :: f') = '[' :: f')
    (hlast : ('[' :: f').getLast? = some lc) (hlc : lc ≠ ']') :
    loads ('[' :: f') = none := by
  cases hl : loads ('[' :: f') with
  | none => rfl
  | some v =>
    exfalso
    unfold loads at hl
    cases hp : parseVal (2 * ('[' :: f').length + 2) ('[' :: f') with
    | none => rw [hp] at hl; exact absurd hl (by simp)
    | some pr =>
      obtain ⟨v1, r1⟩ := pr
      rw [hp] at hl
      have hl' : (if skipWs r1 = [] then some v1 else none) = some v := hl
      by_cases hr : skipWs r1 = []
      · obtain ⟨p, hdcmp, hpend⟩ := parseVal_bracket _ f' v1 r1 (by rw [hp])
        cases hr2 : r1 with
        | nil =>
          rw [hr2, List.append_nil] at hdcmp
          rw [hdcmp, hpend] at hlast
          exact hlc (Option.some.inj hlast).symm
        | cons y ys =>
          have hws : ∀ x ∈ r1, isJsonWs x = true := skipWs_eq_nil_all_ws hr
          have hne : r1 ≠ [] := by rw [hr2]; simp
          have h1 : ('[' :: f').getLast? = r1.getLast? := by
            rw [hdcmp]
            exact List.getLast?_append_of_ne_nil p hne
          rw [hlast] at h1
          have hmem : lc ∈ r1 := List.mem_of_mem_getLast? h1.symm
          have hsp : isPySpace lc = true := isPySpace_of_isJsonWs (hws lc hmem)
          rw [stripped_getLast_not_space hstrip hlast] at hsp
          exact absurd hsp (by decide)
      · rw [if_neg hr] at hl'
        exact absurd hl' (by simp)

/-- The continuation scan ignores lines without a closing bracket. -/
theorem scanClose_skip {mid : List Str}
    (h : ∀ l ∈ mid, findIdxCh (fun c => c == ']') l = none) (ls : List Str) :
    scanClose (mid ++ ls) = scanClose ls := by
  induction mid with
  | nil => rfl
  | cons m mid' ih =>
    rw [List.cons_append]
    show (match findIdxCh (fun c => c == ']') m with
      | some k => some (List.take (k + 1) m)
      | none => scanClose (mid' ++ ls)) = scanClose ls
    rw [h m (List.mem_cons_self m mid')]
    exact ih (fun l hl => h l (List.mem_cons_of_mem m hl))

/-- Decomposition of a successful first-index search. -/
theorem findIdxCh_some {p : Char → Bool} : ∀ (l : Str) (k : Nat),
    findIdxCh p l = some k →
    ∃ a c b, l = a ++ c :: b ∧ a.length = k ∧ p c = true ∧ ∀ x ∈ a, p x = false := by
  intro l
  induction l with
  | nil => intro k h; simp [findIdxCh] at h
  | cons x xs ih =>
    intro k h
    unfold findIdxCh at h
    by_cases hp : p x = true
    · rw [if_pos hp] at h
      injection h with h'
      subst h'
      exact ⟨[], x, xs, rfl, rfl, hp, by simp⟩
    · rw [if_neg hp] at h
      cases hfx : findIdxCh p xs with
      | none => rw [hfx] at h; exact absurd h (by simp)
      | some k' =>
        rw [hfx] at h
        injection h with h'
        subst h'
        obtain ⟨a, c, b, hl, hlen, hpc, hall⟩ := ih k' hfx
        refine ⟨x :: a, c, b, by rw [hl]; rfl, by simp [hlen], hpc, ?_⟩
        intro y hy
        rcases List.mem_cons.mp hy with rfl | hy
        · cases hpx : p y with
          | false => rfl
          | true => exact absurd hpx hp
        · exact hall y hy

/-- Lines without the marker are skipped by the scanning loop. -/
theorem chLoop_no_marker (ls : List Str)
    (h : ∀ l ∈ ls, hasSubstr l chMarker = false) :
    chLoop ls = Except.ok none := by
  induction ls with
  | nil => rfl
  | cons l rest ih =>
    unfold chLoop
    rw [if_neg (by simp [h l (List.mem_cons_self l rest)])]
    exact ih (fun x hx => h x (List.mem_cons_of_mem l hx))

theorem hasSubstr_nil_tok (s : Str) : hasSubstr s [] = true := by
  cases s <;> simp [hasSubstr, List.isPrefixOf]

theorem isPrefixOf_append_right {l₁ l₂ : Str} (y : Str) (h : l₁.isPrefixOf l₂ = true) :
    l₁.isPrefixOf (l₂ ++ y) = true := by
  rw [List.isPrefixOf_iff_prefix] at h ⊢
  exact h.trans (List.prefix_append l₂ y)

theorem hasSubstr_cons (c : Char) (s tok : Str) :
    hasSubstr (c :: s) tok = (tok.isPrefixOf (c :: s) || hasSubstr s tok) := by
  conv_lhs => unfold hasSubstr

theorem hasSubstr_append_right {s tok : Str} (y : Str) (h : hasSubstr s tok = true) :
    hasSubstr (s ++ y) tok = true := by
  induction s with
  | nil =>
    cases tok with
    | nil => exact hasSubstr_nil_tok y
    | cons t tok' => simp [hasSubstr, List.isPrefixOf] at h
  | cons c s' ih =>
    rw [hasSubstr_cons] at h
    rw [List.cons_append, hasSubstr_cons]
    rcases Bool.or_eq_true_iff.mp h with h | h
    · have hp := isPrefixOf_append_right y h
      rw [List.cons_append] at hp
      simp [hp]
    · simp [ih h]

theorem hasSubstr_middle (a tok b : Str) : hasSubstr (a ++ (tok ++ b)) tok = true := by
  induction a with
  | nil =>
    cases tok with
    | nil => exact hasSubstr_nil_tok _
    | cons t tok' =>
      rw [List.nil_append, List.cons_append, hasSubstr_cons]
      have hp : (t :: tok').isPrefixOf (t :: tok' ++ b) = true := by
        rw [List.isPrefixOf_iff_prefix]
        exact List.prefix_append _ _
      rw [List.cons_append] at hp
      simp [hp]
  | cons c a' ih =>
    rw [List.cons_append, hasSubstr_cons]
    simp [ih]

theorem dropLast_cons_ne_nil (c : Char) {x : Str} (hx : x ≠ []) :
    (c :: x).dropLast = c :: x.dropLast := by
  have := List.dropLast_append_of_ne_nil [c] hx
  simpa using this

/-- When `tok` does not occur before position `a.length` — expressed as
`tok` not being a substring of `(a ++ tok).dropLast` — splitting at the
first occurrence of `tok` splits exactly around the displayed occurrence. -/
theorem splitFirst_append (a b tok : Str)
    (h : hasSubstr (a ++ tok).dropLast tok = false) :
    splitFirst (a ++ (tok ++ b)) tok = some (a, b) := by
  have htok : tok ≠ [] := by
    intro he
    subst he
    rw [hasSubstr_nil_tok] at h
    exact absurd h (by decide)
  induction a with
  | nil =>
    rw [List.nil_append]
    unfold splitFirst
    have hp : tok.isPrefixOf (tok ++ b) = true := by
      rw [List.isPrefixOf_iff_prefix]
      exact List.prefix_append _ _
    rw [if_pos hp, List.drop_left]
  | cons c a' ih =>
    have hne : a' ++ tok ≠ [] := by
      intro he
      exact htok (List.append_eq_nil.mp he).2
    rw [List.cons_append, dropLast_cons_ne_nil c hne, hasSubstr_cons,
      Bool.or_eq_false_iff] at h
    obtain ⟨h1, h2⟩ := h
    have hcond : tok.isPrefixOf (c :: (a' ++ (tok ++ b))) = false := by
      by_contra hb
      have hp : tok.isPrefixOf (c :: (a' ++ (tok ++ b))) = true := by
        revert hb
        cases tok.isPrefixOf (c :: (a' ++ (tok ++ b))) <;> simp
      rw [List.isPrefixOf_iff_prefix] at hp
      have hq : (c :: (a' ++ tok).dropLast) <+: (c :: (a' ++ (tok ++ b))) := by
        rw [List.cons_prefix_cons]
        refine ⟨rfl, ?_⟩
        calc (a' ++ tok).dropLast <+: a' ++ tok := List.dropLast_prefix _
          _ <+: a' ++ (tok ++ b) := by
              rw [← List.append_assoc]
              exact List.prefix_append _ _
      have hlen : tok.length ≤ (c :: (a' ++ tok).dropLast).length := by
        have h0 : 1 ≤ tok.length := by
          cases tok with
          | nil => exact absurd rfl htok
          | cons _ _ => simp
        simp only [List.length_cons, List.length_dropLast, List.length_append]
        omega
      have := List.prefix_of_prefix_length_le hp hq hlen
      rw [← List.isPrefixOf_iff_prefix] at this
      rw [this] at h1
      exact absurd h1 (by decide)
    conv_lhs => unfold splitFirst
    rw [List.cons_append, if_neg (by simp [hcond])]
    show Option.map (fun p => (c :: p.1, p.2)) (splitFirst (a' ++ (tok ++ b)) tok)
      = some (c :: a', b)
    rw [ih h2]
    rfl

/-! ### Claim theorems about `extract_answer` and `status_message` -/

/-- C3: for every log-line list in which at least one line contains the
token `"Answer:"`, `extract_answer` returns the substring of the first
such line following the first occurrence of the token, with surrounding
whitespace trimmed; later lines containing the token (the arbitrary
`post`) are ignored.  The first-occurrence condition on the matching line
is expressed by `hfirst`: no occurrence of the token starts strictly
before the displayed one. -/
theorem extract_answer_first_marker (pre : List Str) (a b : Str) (post : List Str)
    (hpre : ∀ l ∈ pre, hasSubstr l answerTok = false)
    (hfirst : hasSubstr (a ++ answerTok).dropLast answerTok = false) :
    extract_answer (pre ++ (a ++ answerTok ++ b) :: post) = pystrip b := by
  induction pre with
  | nil =>
    rw [List.nil_append]
    unfold extract_answer
    have hin : hasSubstr (a ++ answerTok ++ b) answerTok = true := by
      rw [List.append_assoc]
      exact hasSubstr_middle a answerTok b
    rw [if_pos hin]
    have hsp : splitFirst (a ++ answerTok ++ b) answerTok = some (a, b) := by
      rw [List.append_assoc]
      exact splitFirst_append a b answerTok hfirst
    unfold afterFirst
    rw [hsp]
  | cons l pre' ih =>
    rw [List.cons_append]
    unfold extract_answer
    rw [if_neg (by simp [hpre l (List.mem_cons_self l pre')])]
    exact ih (fun x hx => hpre x (List.mem_cons_of_mem l hx))

/-- Witness for `extract_answer_first_marker` at a concrete log. -/
theorem extract_answer_first_marker_witness :
    extract_answer [str "step one", str "Final Answer:  42 ", str "Answer: ignored"]
      = str "42" := by
  have h := extract_answer_first_marker [str "step one"] (str "Final ") (str "  42 ")
    [str "Answer: ignored"] (by decide) (by decide)
  have e : str "Final " ++ answerTok ++ str "  42 " = str "Final Answer:  42 " := by decide
  rw [e] at h
  exact h.trans (by decide)

/-- C9: for every log-line list in which no line contains the token
`"Answer:"`, `extract_answer` returns the absent result, which in the
code is the empty string (the initial value of `answer`). -/
theorem extract_answer_no_marker (logs : List Str)
    (h : ∀ l ∈ logs, hasSubstr l answerTok = false) :
    extract_answer logs = str "" := by
  induction logs with
  | nil => rfl
  | cons l rest ih =>
    unfold extract_answer
    rw [if_neg (by simp [h l (List.mem_cons_self l rest)])]
    exact ih (fun x hx => h x (List.mem_cons_of_mem l hx))

/-- Witness for `extract_answer_no_marker` at a concrete log. -/
theorem extract_answer_no_marker_witness :
    extract_answer [str "hello", str "the answer is unknown"] = str "" :=
  extract_answer_no_marker _ (by decide)

/-- C8: for an exited process, the status message is the success message
exactly when the exit code is 0, and for a non-zero exit code it is the
failure message, which contains the exit code as a substring. -/
theorem status_message_exit (c : Int) :
    (status_message (some c) = str "✅ 执行成功" ↔ c = 0) ∧
    (c ≠ 0 →
      status_message (some c) = str "❌ 执行失败 (返回码: " ++ intToStr c ++ str ")" ∧
      hasSubstr (status_message (some c)) (intToStr c) = true) := by
  by_cases hc : c = 0
  · subst hc
    exact ⟨by simp [status_message], fun h => absurd rfl h⟩
  · have hmsg : status_message (some c) =
        str "❌ 执行失败 (返回码: " ++ intToStr c ++ str ")" := by
      simp [status_message, hc]
    refine ⟨⟨fun h => ?_, fun h => absurd h hc⟩, fun _ => ⟨hmsg, ?_⟩⟩
    · rw [hmsg] at h
      rw [show str "✅ 执行成功" = '✅' :: str " 执行成功" from rfl,
        show str "❌ 执行失败 (返回码: " = '❌' :: str " 执行失败 (返回码: " from rfl,
        List.cons_append, List.cons_append] at h
      have := (List.cons_eq_cons.mp h).1
      exact absurd this (by decide)
    · rw [hmsg, List.append_assoc]
      exact hasSubstr_middle _ _ _

/-- Witness for `status_message_exit` at exit codes `-15` and `0`. -/
theorem status_message_exit_witness :
    status_message (some (-15)) = str "❌ 执行失败 (返回码: -15)" ∧
    status_message (some 0) = str "✅ 执行成功" := by
  constructor
  · have h := ((status_message_exit (-15)).2 (by decide)).1
    exact h.trans (by decide)
  · exact (status_message_exit 0).1.mpr rfl

/-! ### Lemmas about `extract_chat_history` -/

theorem findIdxCh_append (p : Char → Bool) (pre : Str) (c : Char) (s' : Str)
    (hpre : ∀ x ∈ pre, p x = false) (hc : p c = true) :
    findIdxCh p (pre ++ c :: s') = some pre.length := by
  induction pre with
  | nil => simp [findIdxCh, hc]
  | cons x xs ih =>
    rw [List.cons_append]
    unfold findIdxCh
    rw [if_neg (by simp [hpre x (List.mem_cons_self x xs)])]
    rw [ih (fun y hy => hpre y (List.mem_cons_of_mem x hy))]
    simp

theorem dget?_eq_some_of_any {α : Type} (m : List (Str × α)) (k : Str)
    (h : m.any (fun kv => kv.1 == k) = true) : ∃ v, dget? m k = some v := by
  induction m with
  | nil => simp at h
  | cons kv m' ih =>
    by_cases hk : (kv.1 == k) = true
    · exact ⟨kv.2, by simp [dget?, hk]⟩
    · have hkf : (kv.1 == k) = false := by
        cases hkk : (kv.1 == k)
        · rfl
        · exact absurd hkk hk
      rw [List.any_cons, hkf, Bool.false_or] at h
      obtain ⟨v, hv⟩ := ih h
      exact ⟨v, by simpa [dget?, hkf] using hv⟩

theorem except_bind_ok {ε α β : Type} (a : α) (f : α → Except ε β) :
    (Except.ok a : Except ε α) >>= f = f a := rfl

theorem formatChat_objs (xs : List Json)
    (hobjs : ∀ j ∈ xs, ∃ fields, j = Json.obj fields ∧
      fields.any (fun kv => kv.1 == str "role") = true ∧
      fields.any (fun kv => kv.1 == str "content") = true) :
    formatChat xs = .ok (xs.map msgPair) := by
  induction xs with
  | nil => rfl
  | cons m ms ih =>
    obtain ⟨fields, hm, hr, hc⟩ := hobjs m (List.mem_cons_self m ms)
    subst hm
    obtain ⟨r, hrv⟩ := dget?_eq_some_of_any fields (str "role") hr
    obtain ⟨c, hcv⟩ := dget?_eq_some_of_any fields (str "content") hc
    have ihh := ih (fun j hj => hobjs j (List.mem_cons_of_mem _ hj))
    simp only [formatChat, pyContains, pyIndex, hr, hc, hrv, hcv, if_true, ihh,
      List.map_cons]
    simp [msgPair, hrv, hcv, except_bind_ok]

theorem loads_nil : loads [] = none := rfl

/-! ### Claim theorems about `extract_chat_history` -/

/-- C4: a single log line made of a marker-bearing part `pre` (containing
`chat_history` and no `[`) followed by a complete JSON array `s` of
objects each having `role` and `content` keys yields a transcript of the
same length in array order, `role = "user"` mapping to the first display
label and every other role to the second (both captured by `msgPair`). -/
theorem extract_chat_history_single_line (pre s : Str) (xs : List Json)
    (hmark : hasSubstr pre chMarker = true)
    (hnb : ∀ x ∈ pre, (x == '[') = false)
    (hhead : s.head? = some '[')
    (hload : loads (pystrip s) = some (Json.arr xs))
    (hobjs : ∀ j ∈ xs, ∃ fields, j = Json.obj fields ∧
      fields.any (fun kv => kv.1 == str "role") = true ∧
      fields.any (fun kv => kv.1 == str "content") = true) :
    extract_chat_history [pre ++ s] = some (xs.map msgPair) ∧
    (xs.map msgPair).length = xs.length := by
  refine ⟨?_, by simp⟩
  obtain ⟨s', rfl⟩ : ∃ s', s = '[' :: s' := by
    cases s with
    | nil => simp at hhead
    | cons c cs => exact ⟨cs, by simpa using congrArg (fun o => (Option.getD o ' ') :: cs) hhead⟩
  have hm1 : hasSubstr (pre ++ '[' :: s') chMarker = true :=
    hasSubstr_append_right _ hmark
  have hf : findIdxCh (fun c => c == '[') (pre ++ '[' :: s') = some pre.length :=
    findIdxCh_append _ pre '[' s' hnb (by simp)
  have hdrop : (pre ++ '[' :: s').drop pre.length = '[' :: s' := List.drop_left pre _
  have hne : pystrip ('[' :: s') ≠ [] := by
    intro he
    rw [he, loads_nil] at hload
    cases hload
  obtain ⟨last, hlast⟩ : ∃ c, (pystrip ('[' :: s')).getLast? = some c := by
    cases hg : (pystrip ('[' :: s')).getLast? with
    | none =>
      exfalso
      apply hne
      cases hx : pystrip ('[' :: s') with
      | nil => rfl
      | cons a as => rw [hx] at hg; simp [List.getLast?_eq_getLast] at hg
    | some c => exact ⟨c, rfl⟩
  have step : chLoop [pre ++ '[' :: s'] = Except.ok (some (xs.map msgPair)) := by
    unfold chLoop
    rw [if_pos hm1, hf]
    simp only [hdrop, hlast, hload, pyIter, formatChat_objs xs hobjs, ne_eq,
      not_true_eq_false, and_false, if_false, except_bind_ok]
  unfold extract_chat_history
  rw [step]

/-- Witness for `extract_chat_history_single_line` at a concrete line. -/
theorem extract_chat_history_single_line_witness :
    extract_chat_history
      [str "agent chat_history dump: [\x7b\"role\":\"user\",\"content\":\"hi\"\x7d,\x7b\"role\":\"assistant\",\"content\":\"yo\"\x7d]"]
      = some [(str "用户", Json.str (str "hi")), (str "助手", Json.str (str "yo"))] := by
  have hobjs : ∀ j ∈ [Json.obj [(str "role", Json.str (str "user")),
        (str "content", Json.str (str "hi"))],
      Json.obj [(str "role", Json.str (str "assistant")),
        (str "content", Json.str (str "yo"))]],
      ∃ fields, j = Json.obj fields ∧
        fields.any (fun kv => kv.1 == str "role") = true ∧
        fields.any (fun kv => kv.1 == str "content") = true := by
    intro j hj
    rcases List.mem_cons.mp hj with rfl | hj
    · exact ⟨_, rfl, rfl, rfl⟩
    · rcases List.mem_cons.mp hj with rfl | hj
      · exact ⟨_, rfl, rfl, rfl⟩
      · cases hj
  have h := (extract_chat_history_single_line
      (str "agent chat_history dump: ")
      (str "[\x7b\"role\":\"user\",\"content\":\"hi\"\x7d,\x7b\"role\":\"assistant\",\"content\":\"yo\"\x7d]")
      _ (by decide) (by decide) rfl (by rfl) hobjs).1
  have e : str "agent chat_history dump: " ++
      str "[\x7b\"role\":\"user\",\"content\":\"hi\"\x7d,\x7b\"role\":\"assistant\",\"content\":\"yo\"\x7d]"
      = str "agent chat_history dump: [\x7b\"role\":\"user\",\"content\":\"hi\"\x7d,\x7b\"role\":\"assistant\",\"content\":\"yo\"\x7d]" := by
    decide
  rw [e] at h
  exact h.trans (by rfl)

/-- C5: `extract_chat_history` never lets an exception reach its caller:
every internal Python error (modelled by an `Except.error` outcome of the
loop inside the outer `try`) is absorbed into the absent result `none`,
and a present transcript can only come from an error-free run. -/
theorem extract_chat_history_no_raise (logs : List Str) :
    (∀ e, chLoop logs = Except.error e → extract_chat_history logs = none) ∧
    (∀ t, extract_chat_history logs = some t → chLoop logs = Except.ok (some t)) := by
  constructor
  · intro e he
    unfold extract_chat_history
    rw [he]
  · intro t ht
    unfold extract_chat_history at ht
    cases h : chLoop logs with
    | ok r =>
      simp only [h] at ht
      rw [ht]
    | error e =>
      simp only [h] at ht
      cases ht

/-- Witness for `extract_chat_history_no_raise`: the log line
`chat_history [1]` makes the formatting loop raise `TypeError`
(`"role" in 1`), which the outer handler absorbs into `none`. -/
theorem extract_chat_history_no_raise_witness :
    chLoop [str "chat_history [1]"] = Except.error PyErr.typeError ∧
    extract_chat_history [str "chat_history [1]"] = none :=
  ⟨rfl, (extract_chat_history_no_raise [str "chat_history [1]"]).1 PyErr.typeError rfl⟩

/-- Evaluation of the scanning loop on a marker-bearing first line
`pre ++ '[' :: f'` with `pre` containing the marker and no `[`, and the
fragment `'[' :: f'` already stripped with last character `lc`. -/
theorem chLoop_marker_line (pre f' : Str) (lc : Char) (tail : List Str)
    (hmark : hasSubstr pre chMarker = true)
    (hnb : ∀ x ∈ pre, (x == '[') = false)
    (hstrip : pystrip ('[' :: f') = '[' :: f')
    (hlast : ('[' :: f').getLast? = some lc) :
    chLoop ((pre ++ '[' :: f') :: tail) =
      (match loads (if lc ≠ ']' ∧ tail ≠ [] then
          match scanClose (tail.take 9) with
          | some app => ('[' :: f') ++ app
          | none => ('[' :: f')
        else ('[' :: f')) with
      | none => chLoop tail
      | some chat_data => do
          let msgs ← pyIter chat_data
          let t ← formatChat msgs
          Except.ok (some t)) := by
  simp only [chLoop]
  rw [if_pos (hasSubstr_append_right _ hmark),
    findIdxCh_append _ pre '[' f' hnb (by simp)]
  simp only [List.drop_left, hstrip, hlast]

/-- Two-piece reassembly: when the marker-line fragment is unclosed and,
within the 9-line window, the lines before the first `]`-bearing line
contain no `]` (they are skipped by the scan either way), extraction on
the split log equals extraction on the single line obtained by joining
the fragment with the prefix of the closing line up to its first `]`. -/
theorem chat_two_piece_aux (pre f' : Str) (lc : Char) (mid : List Str)
    (closer : Str) (k : Nat) (rest : List Str)
    (hmark : hasSubstr pre chMarker = true)
    (hnb : ∀ x ∈ pre, (x == '[') = false)
    (hstrip : pystrip ('[' :: f') = '[' :: f')
    (hlast : ('[' :: f').getLast? = some lc) (hlc : lc ≠ ']')
    (hmidlen : mid.length ≤ 8)
    (hmidnb : ∀ l ∈ mid, findIdxCh (fun c => c == ']') l = none)
    (hmidmark : ∀ l ∈ mid, hasSubstr l chMarker = false)
    (hk : findIdxCh (fun c => c == ']') closer = some k)
    (hclosemark : hasSubstr closer chMarker = false)
    (hrestmark : ∀ l ∈ rest, hasSubstr l chMarker = false) :
    extract_chat_history ((pre ++ '[' :: f') :: (mid ++ closer :: rest)) =
      extract_chat_history [pre ++ '[' :: (f' ++ closer.take (k+1))] := by
  obtain ⟨a, cch, b, hcl, hak, hpc, -⟩ := findIdxCh_some closer k hk
  have hc : cch = ']' := by simpa using hpc
  subst hc
  have htake : closer.take (k+1) = a ++ [']'] := by
    subst hak
    rw [hcl, List.take_append_eq_append_take,
      List.take_of_length_le (Nat.le_succ_of_le (Nat.le_refl _))]
    have h1 : a.length + 1 - a.length = 1 := by omega
    rw [h1]
    simp
  have hlast2 : ('[' :: (f' ++ closer.take (k+1))).getLast? = some ']' := by
    rw [htake,
      show '[' :: (f' ++ (a ++ [']'])) = ('[' :: (f' ++ a)) ++ [']'] from by simp,
      List.getLast?_append_of_ne_nil _ (by simp)]
    rfl
  have hstrip2 : pystrip ('[' :: (f' ++ closer.take (k+1)))
      = '[' :: (f' ++ closer.take (k+1)) :=
    pystrip_eq_self_of_ends rfl (by decide) hlast2 (by decide)
  have hA := chLoop_marker_line pre f' lc (mid ++ closer :: rest) hmark hnb hstrip hlast
  have hB := chLoop_marker_line pre (f' ++ closer.take (k+1)) ']' [] hmark hnb
    hstrip2 hlast2
  rw [if_pos (⟨hlc, by simp⟩ : lc ≠ ']' ∧ mid ++ closer :: rest ≠ [])] at hA
  rw [if_neg (by simp)] at hB
  have hscan : scanClose ((mid ++ closer :: rest).take 9) = some (closer.take (k+1)) := by
    have hsplit : (mid ++ closer :: rest).take 9
        = mid ++ closer :: rest.take (8 - mid.length) := by
      rw [List.take_append_eq_append_take, List.take_of_length_le (by omega)]
      have h9 : 9 - mid.length = (8 - mid.length) + 1 := by omega
      rw [h9, List.take_succ_cons]
    rw [hsplit, scanClose_skip hmidnb]
    show (match findIdxCh (fun c => c == ']') closer with
      | some j => some (closer.take (j+1))
      | none => scanClose (rest.take (8 - mid.length))) = some (closer.take (k+1))
    rw [hk]
  rw [hscan] at hA
  have hA' : chLoop ((pre ++ '[' :: f') :: (mid ++ closer :: rest)) =
      (match loads ('[' :: (f' ++ closer.take (k+1))) with
      | none => chLoop (mid ++ closer :: rest)
      | some chat_data => do
          let msgs ← pyIter chat_data
          let t ← formatChat msgs
          Except.ok (some t)) := by
    rw [hA]
    rfl
  have hloop : chLoop ((pre ++ '[' :: f') :: (mid ++ closer :: rest))
      = chLoop [pre ++ '[' :: (f' ++ closer.take (k+1))] := by
    rw [hA', hB]
    cases hl : loads ('[' :: (f' ++ closer.take (k+1))) with
    | none =>
      show chLoop (mid ++ closer :: rest) = chLoop ([] : List Str)
      have hall : ∀ l ∈ mid ++ closer :: rest, hasSubstr l chMarker = false := by
        intro l hl'
        rcases List.mem_append.mp hl' with hl' | hl'
        · exact hmidmark l hl'
        · rcases List.mem_cons.mp hl' with rfl | hl'
          · exact hclosemark
          · exact hrestmark l hl'
      rw [chLoop_no_marker _ hall, chLoop_no_marker [] (by simp)]
    | some cd => rfl
  unfold extract_chat_history
  rw [hloop]

/-- No closing bracket in the window: the fragment stays unclosed, the
parse fails, and extraction is absent. -/
theorem chat_no_close_aux (pre f' : Str) (lc : Char) (rest : List Str)
    (hmark : hasSubstr pre chMarker = true)
    (hnb : ∀ x ∈ pre, (x == '[') = false)
    (hstrip : pystrip ('[' :: f') = '[' :: f')
    (hlast : ('[' :: f').getLast? = some lc) (hlc : lc ≠ ']')
    (hwin : ∀ l ∈ rest.take 9, findIdxCh (fun c => c == ']') l = none)
    (hrestmark : ∀ l ∈ rest, hasSubstr l chMarker = false) :
    extract_chat_history ((pre ++ '[' :: f') :: rest) = none := by
  have hA := chLoop_marker_line pre f' lc rest hmark hnb hstrip hlast
  have hloads : loads ('[' :: f') = none := loads_open_unclosed hstrip hlast hlc
  by_cases hre : rest = []
  · subst hre
    rw [if_neg (by simp), hloads] at hA
    have hA' : chLoop ((pre ++ '[' :: f') :: []) = chLoop [] := hA
    unfold extract_chat_history
    rw [hA']
    rfl
  · have hscan : scanClose (rest.take 9) = none := by
      have h0 := scanClose_skip hwin ([] : List Str)
      rwa [List.append_nil] at h0
    have h1 : (if lc ≠ ']' ∧ rest ≠ [] then
        match scanClose (rest.take 9) with
        | some app => ('[' :: f') ++ app
        | none => ('[' :: f')
      else ('[' :: f')) = '[' :: f' := by
      rw [if_pos ⟨hlc, hre⟩, hscan]
    rw [h1, hloads] at hA
    have hA' : chLoop ((pre ++ '[' :: f') :: rest) = chLoop rest := hA
    unfold extract_chat_history
    rw [hA', chLoop_no_marker rest hrestmark]

/-! ### Claim theorems about `run_script` -/

/-- Evaluation of the polling loop when the process stays alive within
budget for `pre` iterations and then overruns the budget: the loop
terminates at that iteration (ignoring `rest`), appends the watchdog log
line after all drained lines, and reports `status_message` of the
post-termination poll. -/
theorem runLoop_timeout (logFile : Str) (termPoll : Option Int) (tail : List Str)
    (it : Iter) (hpoll : it.poll = none) (htime : it.elapsed > 1800) :
    ∀ (pre : List Iter), (∀ j ∈ pre, j.poll = none ∧ j.elapsed ≤ 1800) →
    ∀ (rest : List Iter) (queued logs : List Str) (snaps : List Snapshot),
    ∃ snaps', runLoop logFile termPoll tail (pre ++ it :: rest) queued logs snaps
      = some ⟨snaps',
          ⟨status_message termPoll,
           extract_answer (logs ++ queued ++ (pre.map Iter.newLines).flatten
             ++ it.newLines ++ [timeoutMsg] ++ tail),
           (logs ++ queued ++ (pre.map Iter.newLines).flatten
             ++ it.newLines ++ [timeoutMsg] ++ tail).flatten,
           logFile,
           extract_chat_history (logs ++ queued ++ (pre.map Iter.newLines).flatten
             ++ it.newLines ++ [timeoutMsg] ++ tail)⟩,
          true⟩ := by
  intro pre
  induction pre with
  | nil =>
    intro hpre rest queued logs snaps
    refine ⟨snaps, ?_⟩
    rw [List.nil_append]
    simp only [runLoop, hpoll]
    rw [if_pos htime]
    simp [List.append_assoc]
  | cons p pre' ih =>
    intro hpre rest queued logs snaps
    obtain ⟨hp1, hp2⟩ := hpre p (List.mem_cons_self p pre')
    obtain ⟨snaps'', h⟩ := ih (fun j hj => hpre j (List.mem_cons_of_mem p hj)) rest
      [] (logs ++ (queued ++ p.newLines))
      (snaps ++ [⟨status_message none, extract_answer (logs ++ (queued ++ p.newLines)),
        (logs ++ (queued ++ p.newLines)).flatten, logFile, none⟩])
    refine ⟨snaps'', ?_⟩
    rw [List.cons_append]
    simp only [runLoop, hp1]
    rw [if_neg (by omega)]
    rw [h]
    simp [List.append_assoc]

/-- C2 (amended): a run whose process is still alive after the
1800-time-unit budget is terminated automatically by the driver loop
(the remaining schedule is ignored), the watchdog log line is appended
after every line captured before the termination, and the final snapshot
reports `status_message` of the post-termination poll — which is always
one of the three generic statuses (running / succeeded / failed with
exit code); no timeout-specific status exists. -/
theorem run_script_timeout (question logFile : Str) (pre : List Iter) (it : Iter)
    (rest : List Iter) (termPoll : Option Int) (tail : List Str)
    (hq : pystrip question ≠ [])
    (hpre : ∀ j ∈ pre, j.poll = none ∧ j.elapsed ≤ 1800)
    (hpoll : it.poll = none) (htime : it.elapsed > 1800) :
    ∃ res, run_script question logFile (pre ++ it :: rest) termPoll tail = some res ∧
      res.spawned = true ∧
      res.final.status = status_message termPoll ∧
      res.final.logText = ((pre.map Iter.newLines).flatten ++ it.newLines
        ++ [timeoutMsg] ++ tail).flatten ∧
      res.final.answer = extract_answer ((pre.map Iter.newLines).flatten ++ it.newLines
        ++ [timeoutMsg] ++ tail) ∧
      (res.final.status = str "⏳ 正在运行..." ∨
       res.final.status = str "✅ 执行成功" ∨
       ∃ c, termPoll = some c ∧ c ≠ 0 ∧
         res.final.status = str "❌ 执行失败 (返回码: " ++ intToStr c ++ str ")") := by
  obtain ⟨snaps', h⟩ := runLoop_timeout logFile termPoll tail it hpoll htime pre hpre
    rest [] [] []
  simp only [List.nil_append] at h
  refine ⟨⟨snaps',
      ⟨status_message termPoll,
       extract_answer ((pre.map Iter.newLines).flatten ++ it.newLines
         ++ [timeoutMsg] ++ tail),
       ((pre.map Iter.newLines).flatten ++ it.newLines ++ [timeoutMsg] ++ tail).flatten,
       logFile,
       extract_chat_history ((pre.map Iter.newLines).flatten ++ it.newLines
         ++ [timeoutMsg] ++ tail)⟩,
      true⟩, ?_, rfl, rfl, rfl, rfl, ?_⟩
  · unfold run_script
    rw [if_neg hq]
    exact h
  · show status_message termPoll = _ ∨ status_message termPoll = _ ∨ _
    cases termPoll with
    | none => exact Or.inl rfl
    | some c =>
      by_cases hc : c = 0
      · subst hc
        exact Or.inr (Or.inl (by simp [status_message]))
      · exact Or.inr (Or.inr ⟨c, rfl, hc, by simp [status_message, hc]⟩)

/-- Witness for `run_script_timeout` at a concrete overrunning schedule. -/
theorem run_script_timeout_witness :
    ∃ res, run_script (str "q") (str "log") [⟨none, 1801, [str "line1\n"]⟩]
        (some (-15)) [] = some res ∧
      res.final.status = str "❌ 执行失败 (返回码: -15)" ∧
      res.final.logText = str "line1\n执行超时，已终止进程\n" := by
  obtain ⟨res, h1, h2, h3, h4, h5, h6⟩ := run_script_timeout (str "q") (str "log")
    [] ⟨none, 1801, [str "line1\n"]⟩ [] (some (-15)) [] (by decide) (by simp)
    rfl (by decide)
  refine ⟨res, h1, ?_, ?_⟩
  · rw [h3]
    decide
  · rw [h4]
    decide

/-- C2 counterexample: the final snapshot of a timed-out run carries the
generic failure status derived from the exit code — the very status an
ordinary (non-timed-out) failed run reports — so no timeout status is
reported in the final snapshot. -/
theorem run_script_timeout_status_counterexample :
    (run_script (str "q") (str "log") [⟨none, 1801, [str "hello\n"]⟩]
        (some (-15)) []).map (fun r => r.final.status)
      = some (str "❌ 执行失败 (返回码: -15)") ∧
    (run_script (str "q") (str "log") [⟨some (-15), 5, []⟩] none []).map
        (fun r => r.final.status)
      = some (str "❌ 执行失败 (返回码: -15)") := by
  constructor <;> rfl

/-- C6: a run request whose question is empty or whitespace-only returns
the validation 5-tuple immediately: no snapshots, no process spawned,
the schedule never consulted. -/
theorem run_script_empty_question (question logFile : Str) (iters : List Iter)
    (termPoll : Option Int) (tail : List Str)
    (h : pystrip question = []) :
    run_script question logFile iters termPoll tail
      = some ⟨[], ⟨validationMsg, [], [], [], none⟩, false⟩ := by
  unfold run_script
  rw [if_pos h]

/-- Witness for `run_script_empty_question` at a whitespace question. -/
theorem run_script_empty_question_witness :
    run_script (str "  \t ") (str "log") [⟨none, 0, [str "l"]⟩] none []
      = some ⟨[], ⟨validationMsg, [], [], [], none⟩, false⟩ :=
  run_script_empty_question _ _ _ _ _ (by decide)

/-- C1 (amended): the continuation scan joins the marker-line fragment
with only the prefix (through the first `]`) of the first `]`-bearing
line among the next 9, skipping intermediate lines entirely; extraction
on such a split equals extraction on the single line obtained from that
two-piece join (first conjunct).  When no `]` occurs within the 9-line
window, the fragment stays unclosed, its parse fails, and extraction
returns absent (second conjunct). -/
theorem extract_chat_history_reassembly :
    (∀ (pre f' : Str) (lc : Char) (mid : List Str) (closer : Str) (k : Nat)
      (rest : List Str),
      hasSubstr pre chMarker = true →
      (∀ x ∈ pre, (x == '[') = false) →
      pystrip ('[' :: f') = '[' :: f' →
      ('[' :: f').getLast? = some lc → lc ≠ ']' →
      mid.length ≤ 8 →
      (∀ l ∈ mid, findIdxCh (fun c => c == ']') l = none) →
      (∀ l ∈ mid, hasSubstr l chMarker = false) →
      findIdxCh (fun c => c == ']') closer = some k →
      hasSubstr closer chMarker = false →
      (∀ l ∈ rest, hasSubstr l chMarker = false) →
      extract_chat_history ((pre ++ '[' :: f') :: (mid ++ closer :: rest)) =
        extract_chat_history [pre ++ '[' :: (f' ++ closer.take (k+1))]) ∧
    (∀ (pre f' : Str) (lc : Char) (rest : List Str),
      hasSubstr pre chMarker = true →
      (∀ x ∈ pre, (x == '[') = false) →
      pystrip ('[' :: f') = '[' :: f' →
      ('[' :: f').getLast? = some lc → lc ≠ ']' →
      (∀ l ∈ rest.take 9, findIdxCh (fun c => c == ']') l = none) →
      (∀ l ∈ rest, hasSubstr l chMarker = false) →
      extract_chat_history ((pre ++ '[' :: f') :: rest) = none) :=
  ⟨fun pre f' lc mid closer k rest h1 h2 h3 h4 h5 h6 h7 h8 h9 h10 h11 =>
      chat_two_piece_aux pre f' lc mid closer k rest h1 h2 h3 h4 h5 h6 h7 h8 h9 h10 h11,
    fun pre f' lc rest h1 h2 h3 h4 h5 h6 h7 =>
      chat_no_close_aux pre f' lc rest h1 h2 h3 h4 h5 h6 h7⟩

/-- Witness for `extract_chat_history_reassembly`: a concrete two-piece
split (with a skipped middle line) equal to its joined single line, and
a concrete window without `]` yielding absent. -/
theorem extract_chat_history_reassembly_witness :
    (extract_chat_history [str "chat_history: [\x7b\"role\":\"user\",\"content\":\"a\"\x7d",
        str "ignored", str "]", str "tail"]
      = extract_chat_history [str "chat_history: [\x7b\"role\":\"user\",\"content\":\"a\"\x7d]"]) ∧
    extract_chat_history [str "chat_history: [\x7b\"role\":\"user\",\"content\":\"a\"\x7d]"]
      = some [(str "用户", Json.str (str "a"))] ∧
    extract_chat_history [str "chat_history: [1,", str "x", str "y"] = none := by
  refine ⟨?_, by rfl, ?_⟩
  · have h := extract_chat_history_reassembly.1 (str "chat_history: ")
      (str "\x7b\"role\":\"user\",\"content\":\"a\"\x7d") '}' [str "ignored"] (str "]") 0
      [str "tail"] (by decide) (by decide) (by decide) (by decide) (by decide)
      (by decide) (by decide) (by decide) (by decide) (by decide) (by decide)
    have e1 : (str "chat_history: " ++ '[' :: str "\x7b\"role\":\"user\",\"content\":\"a\"\x7d")
        :: ([str "ignored"] ++ (str "]") :: [str "tail"])
        = [str "chat_history: [\x7b\"role\":\"user\",\"content\":\"a\"\x7d",
           str "ignored", str "]", str "tail"] := by decide
    have e2 : [str "chat_history: " ++ '[' ::
        (str "\x7b\"role\":\"user\",\"content\":\"a\"\x7d" ++ (str "]").take (0+1))]
        = [str "chat_history: [\x7b\"role\":\"user\",\"content\":\"a\"\x7d]"] := by decide
    rw [e1, e2] at h
    exact h
  · have h := extract_chat_history_reassembly.2 (str "chat_history: ") (str "1,") ','
      [str "x", str "y"] (by decide) (by decide) (by decide) (by decide) (by decide)
      (by decide) (by decide)
    have e3 : (str "chat_history: " ++ '[' :: str "1,") :: [str "x", str "y"]
        = [str "chat_history: [1,", str "x", str "y"] := by decide
    rw [e3] at h
    exact h

/-- C1 counterexample: a `chat_history` JSON array split across two
subsequent lines (well within the 9-line window) is NOT reassembled to
the single-line transcript: the continuation scan appends only the
prefix of the first `]`-bearing line, dropping the intermediate line, so
extraction yields `none` while the single-line equivalent of the same
array yields the two-message transcript. -/
theorem extract_chat_history_split_counterexample :
    extract_chat_history [str "chat_history: [\x7b\"role\":\"user\",",
      str "\"content\":\"hi\"\x7d,",
      str "\x7b\"role\":\"assistant\",\"content\":\"yo\"\x7d]"] = none ∧
    extract_chat_history
      [str "chat_history: [\x7b\"role\":\"user\",\"content\":\"hi\"\x7d,\x7b\"role\":\"assistant\",\"content\":\"yo\"\x7d]"]
      = some [(str "用户", Json.str (str "hi")), (str "助手", Json.str (str "yo"))] ∧
    (none : Option Transcript) ≠
      some [(str "用户", Json.str (str "hi")), (str "助手", Json.str (str "yo"))] :=
  ⟨rfl, rfl, fun h => Option.noConfusion h⟩

/-! ### Lemmas about the Python-dict model -/

theorem dget?_nil {α : Type} (k : Str) : dget? ([] : List (Str × α)) k = none := rfl

theorem dget?_cons {α : Type} (kv : Str × α) (m : List (Str × α)) (k : Str) :
    dget? (kv :: m) k = if kv.1 == k then some kv.2 else dget? m k := rfl

theorem dget?_mapUpdate {α : Type} (m : List (Str × α)) (k : Str) (v : α)
    (h : m.any (fun kv => kv.1 == k) = true) :
    dget? (m.map (fun kv => if kv.1 == k then (kv.1, v) else kv)) k = some v := by
  induction m with
  | nil => simp at h
  | cons kv m' ih =>
    cases hk : (kv.1 == k) with
    | true => rw [List.map_cons, if_pos hk, dget?_cons, if_pos hk]
    | false =>
      rw [List.any_cons, hk, Bool.false_or] at h
      rw [List.map_cons, if_neg (by simp [hk]), dget?_cons, if_neg (by simp [hk])]
      exact ih h

theorem dget?_append_absent {α : Type} (m : List (Str × α)) (k : Str) (v : α)
    (h : m.any (fun kv => kv.1 == k) = false) :
    dget? (m ++ [(k, v)]) k = some v := by
  induction m with
  | nil => simp [dget?_cons]
  | cons kv m' ih =>
    rw [List.any_cons, Bool.or_eq_false_iff] at h
    rw [List.cons_append, dget?_cons, if_neg (by simp [h.1])]
    exact ih h.2

theorem dget?_dinsert_self {α : Type} (m : List (Str × α)) (k : Str) (v : α) :
    dget? (dinsert m k v) k = some v := by
  unfold dinsert
  cases hany : m.any (fun kv => kv.1 == k) with
  | true => rw [if_pos rfl]; exact dget?_mapUpdate m k v hany
  | false => rw [if_neg (by simp [hany])]; exact dget?_append_absent m k v hany

theorem dget?_map_ne {α : Type} (m : List (Str × α)) (k' k : Str) (v : α)
    (hk : k' ≠ k) :
    dget? (m.map (fun kv => if kv.1 == k' then (kv.1, v) else kv)) k = dget? m k := by
  induction m with
  | nil => rfl
  | cons kv m' ih =>
    cases hkk : (kv.1 == k') with
    | true =>
      have hq : kv.1 = k' := by simpa using hkk
      have hne : (kv.1 == k) = false := by
        rw [hq]
        simpa using hk
      rw [List.map_cons, if_pos hkk, dget?_cons, dget?_cons,
        if_neg (by simp [hne]), if_neg (by simp [hne])]
      exact ih
    | false =>
      rw [List.map_cons, if_neg (by simp [hkk]), dget?_cons, dget?_cons]
      cases hk2 : (kv.1 == k) with
      | true => rfl
      | false =>
        rw [if_neg (by simp [hk2]), if_neg (by simp [hk2])]
        exact ih

theorem dget?_append_single_ne {α : Type} (m : List (Str × α)) (k' k : Str) (v : α)
    (hk : k' ≠ k) : dget? (m ++ [(k', v)]) k = dget? m k := by
  induction m with
  | nil =>
    rw [List.nil_append, dget?_cons, dget?_nil,
      if_neg (by simp [show (k' == k) = false from by simpa using hk])]
  | cons kv m' ih =>
    rw [List.cons_append, dget?_cons, dget?_cons]
    cases hk2 : (kv.1 == k) with
    | true => rfl
    | false =>
      rw [if_neg (by simp [hk2]), if_neg (by simp [hk2])]
      exact ih

theorem dget?_dinsert_ne {α : Type} (m : List (Str × α)) (k' k : Str) (v : α)
    (hk : k' ≠ k) : dget? (dinsert m k' v) k = dget? m k := by
  unfold dinsert
  cases hany : m.any (fun kv => kv.1 == k') with
  | true =>
    rw [if_pos rfl]
    exact dget?_map_ne m k' k v hk
  | false =>
    rw [if_neg (by simp [hany])]
    exact dget?_append_single_ne m k' k v hk

theorem dget?_eq_some_mem {α : Type} (m : List (Str × α)) (k : Str) (w : α)
    (h : dget? m k = some w) : (k, w) ∈ m := by
  induction m with
  | nil => simp [dget?_nil] at h
  | cons kv m' ih =>
    rw [dget?_cons] at h
    cases hk : (kv.1 == k) with
    | true =>
      rw [if_pos hk] at h
      have h1 : kv.1 = k := by simpa using hk
      have h2 : kv.2 = w := by simpa using h
      exact List.mem_cons.mpr (Or.inl (by rw [← h1, ← h2]))
    | false =>
      rw [if_neg (by simp [hk])] at h
      exact List.mem_cons_of_mem kv (ih h)

theorem dget?_isSome_mem_keys {α : Type} (m : List (Str × α)) (k : Str)
    (h : (dget? m k).isSome = true) : m.any (fun kv => kv.1 == k) = true := by
  induction m with
  | nil => simp [dget?_nil] at h
  | cons kv m' ih =>
    rw [dget?_cons] at h
    cases hk : (kv.1 == k) with
    | true => simp [hk]
    | false =>
      rw [if_neg (by simp [hk])] at h
      rw [List.any_cons, hk, Bool.false_or]
      exact ih h

/-! ### Further lemmas about `pystrip` -/

theorem dropWhile_head_false {p : Char → Bool} : ∀ (l : Str) (c : Char) (t : Str),
    l.dropWhile p = c :: t → p c = false := by
  intro l
  induction l with
  | nil => intro c t h; simp at h
  | cons x xs ih =>
    intro c t h
    rw [List.dropWhile_cons] at h
    by_cases hx : p x = true
    · rw [if_pos hx] at h
      exact ih c t h
    · rw [if_neg hx] at h
      injection h with h1 h2
      subst h1
      cases hpx : p x with
      | false => rfl
      | true => exact absurd hpx hx

theorem rstrip_prefix (y : Str) : rstrip y <+: y := by
  have h : (y.reverse.dropWhile isPySpace) <:+ y.reverse :=
    List.dropWhile_suffix isPySpace
  have := List.reverse_prefix.mpr h
  simpa [rstrip] using this

theorem rstrip_getLast?_not_space (y : Str) (d : Char) (t : Str)
    (h : rstrip y = d :: t) :
    ∃ e, (d :: t).getLast? = some e ∧ isPySpace e = false := by
  unfold rstrip at h
  have h2 : y.reverse.dropWhile isPySpace = (d :: t).reverse := by
    rw [← h]
    simp
  cases he : (d :: t).reverse with
  | nil => simp at he
  | cons e r =>
    rw [he] at h2
    have hsp := dropWhile_head_false y.reverse e r h2
    have h3 := List.getLast?_reverse ((d :: t).reverse)
    rw [List.reverse_reverse] at h3
    rw [he] at h3
    exact ⟨e, by rw [h3]; rfl, hsp⟩

theorem lstrip_head_not_space (x : Str) (c : Char) (t : Str)
    (h : lstrip x = c :: t) : isPySpace c = false :=
  dropWhile_head_false x c t h

theorem lstrip_cons_self_head {c : Char} {xs : Str}
    (h : lstrip (c :: xs) = c :: xs) : isPySpace c = false :=
  lstrip_head_not_space (c :: xs) c xs h

theorem pystrip_idem (x : Str) : pystrip (pystrip x) = pystrip x := by
  cases hry : pystrip x with
  | nil => rfl
  | cons d t =>
    have hyr : rstrip (lstrip x) = d :: t := hry
    obtain ⟨e, he1, he2⟩ := rstrip_getLast?_not_space (lstrip x) d t hyr
    have hd : isPySpace d = false := by
      have hpre : rstrip (lstrip x) <+: lstrip x := rstrip_prefix _
      rw [hyr] at hpre
      obtain ⟨r, hr⟩ := hpre
      have hlx : lstrip x = d :: (t ++ r) := by
        rw [← hr, List.cons_append]
      exact lstrip_head_not_space x d (t ++ r) hlx
    exact pystrip_eq_self_of_ends rfl hd he1 he2

theorem mem_pystrip {x : Char} {a : Str} (h : x ∈ pystrip a) : x ∈ a := by
  have h1 : (pystrip a).Sublist (lstrip a) := ( rstrip_prefix (lstrip a)).sublist
  have h2 : (lstrip a).Sublist a := (List.dropWhile_suffix isPySpace).sublist
  exact h2.mem (h1.mem h)

theorem rstrip_cons_nonspace {c : Char} (xs : Str) (hc : isPySpace c = false) :
    rstrip (c :: xs) = c :: rstrip xs := by
  unfold rstrip
  rw [show (c :: xs).reverse = xs.reverse ++ [c] from by simp, List.dropWhile_append]
  cases hd : (xs.reverse.dropWhile isPySpace).isEmpty with
  | true =>
    rw [if_pos rfl]
    have he : xs.reverse.dropWhile isPySpace = [] := by
      cases hx : xs.reverse.dropWhile isPySpace with
      | nil => rfl
      | cons a b => rw [hx] at hd; simp at hd
    rw [he]
    rw [show List.dropWhile isPySpace [c] = [c] from by
      rw [List.dropWhile_cons, if_neg (by simp [hc])]]
    simp
  | false =>
    rw [if_neg (by simp [hd])]
    simp

theorem rstrip_append_cons (a : Str) {c : Char} (b : Str) (hc : isPySpace c = false) :
    rstrip (a ++ c :: b) = a ++ c :: rstrip b := by
  unfold rstrip
  rw [List.reverse_append,
    show (c :: b).reverse = b.reverse ++ [c] from by simp,
    List.append_assoc, List.dropWhile_append]
  cases hd : (b.reverse.dropWhile isPySpace).isEmpty with
  | true =>
    rw [if_pos rfl]
    have he : b.reverse.dropWhile isPySpace = [] := by
      cases hx : b.reverse.dropWhile isPySpace with
      | nil => rfl
      | cons x y => rw [hx] at hd; simp at hd
    rw [he]
    rw [show ([c] ++ a.reverse) = c :: a.reverse from rfl,
      List.dropWhile_cons, if_neg (by simp [hc])]
    simp
  | false =>
    rw [if_neg (by simp [hd])]
    simp

theorem rstrip_eq_self_of_pystrip {v : Str} (h : pystrip v = v) : rstrip v = v := by
  have h1 : lstrip v = v := lstrip_eq_self_of_pystrip h
  have h2 := h
  unfold pystrip at h2
  rwa [h1] at h2

theorem pystrip_keyline (k v : Str) (hk : pystrip k = k) :
    pystrip (k ++ '=' :: v) = k ++ '=' :: rstrip v := by
  cases k with
  | nil =>
    rw [List.nil_append, List.nil_append]
    unfold pystrip
    rw [lstrip_cons_of_not_space _ (by decide)]
    exact rstrip_cons_nonspace v (by decide)
  | cons c k' =>
    have hl : lstrip (c :: k') = c :: k' := lstrip_eq_self_of_pystrip hk
    have hc : isPySpace c = false := lstrip_cons_self_head hl
    unfold pystrip
    rw [List.cons_append, lstrip_cons_of_not_space _ hc, ← List.cons_append]
    exact rstrip_append_cons (c :: k') v (by decide)

/-! ### Lemmas about `parseEnvLine` -/

theorem splitFirst_single_eq {c : Char} : ∀ (a b : Str), c ∉ a →
    splitFirst (a ++ c :: b) [c] = some (a, b) := by
  intro a
  induction a with
  | nil =>
    intro b hmem
    rw [List.nil_append]
    unfold splitFirst
    rw [if_pos (show (([c]).isPrefixOf (c :: b)) = true by simp [List.isPrefixOf])]
    rfl
  | cons x a' ih =>
    intro b hmem
    have hxne : x ≠ c := fun h => hmem (by rw [h]; exact List.mem_cons_self c a')
    have hxc : (c == x) = false := by
      cases hcx : (c == x) with
      | false => rfl
      | true => exact absurd (eq_of_beq hcx).symm hxne
    rw [List.cons_append]
    unfold splitFirst
    rw [if_neg (by simp [List.isPrefixOf, hxc])]
    show Option.map (fun p => ((x :: p.1, p.2) : Str × Str))
      (splitFirst (a' ++ c :: b) [c]) = some (x :: a', b)
    rw [ih b (fun h => hmem (List.mem_cons_of_mem x h))]
    rfl

theorem splitFirst_some_single {c : Char} : ∀ (s a b : Str),
    splitFirst s [c] = some (a, b) → s = a ++ c :: b ∧ c ∉ a := by
  intro s
  induction s with
  | nil =>
    intro a b h
    unfold splitFirst at h
    rw [if_neg (by simp [List.isPrefixOf])] at h
    exact absurd h (by simp)
  | cons x s' ih =>
    intro a b h
    unfold splitFirst at h
    by_cases hp : (([c]).isPrefixOf (x :: s')) = true
    · rw [if_pos hp] at h
      have hcx : c = x := by
        simp [List.isPrefixOf] at hp
        exact hp
      injection h with h'
      injection h' with h1 h2
      subst h1
      subst h2
      subst hcx
      exact ⟨rfl, by simp⟩
    · rw [if_neg hp] at h
      have h' : Option.map (fun p => ((x :: p.1, p.2) : Str × Str))
          (splitFirst s' [c]) = some (a, b) := h
      cases hsp : splitFirst s' [c] with
      | none => rw [hsp] at h'; exact absurd h' (by simp)
      | some pr =>
        rw [hsp] at h'
        injection h' with h''
        injection h'' with h1 h2
        obtain ⟨hd, hm⟩ := ih pr.1 pr.2 (by rw [hsp])
        have hcx : c ≠ x := by
          intro hc
          subst hc
          exact hp (by simp [List.isPrefixOf])
        subst h1
        subst h2
        constructor
        · rw [List.cons_append, ← hd]
        · intro hin
          rcases List.mem_cons.mp hin with hin | hin
          · exact hcx hin
          · exact hm hin

theorem pystrip_head_eq (a : Str) (c : Char) (cs : Str) (h : pystrip a = c :: cs) :
    ∃ t, lstrip a = c :: t := by
  have hpre : pystrip a <+: lstrip a := rstrip_prefix (lstrip a)
  rw [h] at hpre
  obtain ⟨r, hr⟩ := hpre
  exact ⟨cs ++ r, by rw [← hr, List.cons_append]⟩

/-- A written `key=value` line parses back to the same key and the
doubly-stripped value. -/
theorem parseEnvLine_written (k v : Str) (hks : pystrip k = k)
    (hkh : ¬ (['#'].isPrefixOf k = true)) (hkeq : '=' ∉ k) :
    parseEnvLine (k ++ '=' :: v) = some (k, pystrip (rstrip v)) := by
  simp only [parseEnvLine]
  rw [pystrip_keyline k v hks]
  rw [if_neg (by simp)]
  have hsharp : (['#'].isPrefixOf (k ++ '=' :: rstrip v)) = false := by
    cases k with
    | nil => simp [List.isPrefixOf]
    | cons c k' =>
      have hc : ('#' == c) = false := by
        cases hcc : ('#' == c) with
        | false => rfl
        | true => exact absurd (by simp [List.isPrefixOf, hcc]) hkh
      simp [List.isPrefixOf, hc]
  rw [if_neg (by simp [hsharp])]
  rw [splitFirst_single_eq k (rstrip v) hkeq]
  show some (pystrip k, pystrip (rstrip v)) = some (k, pystrip (rstrip v))
  rw [hks]

/-- Every entry produced by the reading loop has a stripped,
non-comment, `=`-free key and a stripped value. -/
theorem parseEnvLine_good (line k w : Str) (h : parseEnvLine line = some (k, w)) :
    (pystrip k = k ∧ ¬ (['#'].isPrefixOf k = true) ∧ '=' ∉ k) ∧ pystrip w = w := by
  simp only [parseEnvLine] at h
  by_cases h1 : pystrip line = []
  · rw [if_pos h1] at h
    exact absurd h (by simp)
  · rw [if_neg h1] at h
    by_cases h2 : (['#'].isPrefixOf (pystrip line)) = true
    · rw [if_pos h2] at h
      exact absurd h (by simp)
    · rw [if_neg h2] at h
      cases hsp : splitFirst (pystrip line) ['='] with
      | none => rw [hsp] at h; exact absurd h (by simp)
      | some kv =>
        rw [hsp] at h
        injection h with h'
        injection h' with hk hw
        obtain ⟨hdecomp, hnotmem⟩ := splitFirst_some_single _ _ _ hsp
        subst hk
        subst hw
        refine ⟨⟨pystrip_idem kv.1, ?_, ?_⟩, pystrip_idem kv.2⟩
        · cases hk1 : pystrip kv.1 with
          | nil => simp [List.isPrefixOf]
          | cons c cs =>
            cases hkv1 : kv.1 with
            | nil => rw [hkv1] at hk1; simp [pystrip, lstrip, rstrip] at hk1
            | cons x k1' =>
              have hx : isPySpace x = false := by
                have hidem : lstrip (pystrip line) = pystrip line :=
                  lstrip_eq_self_of_pystrip (pystrip_idem line)
                rw [hdecomp, hkv1, List.cons_append] at hidem
                exact lstrip_cons_self_head hidem
              have hlk : lstrip kv.1 = x :: k1' := by
                rw [hkv1]
                exact lstrip_cons_of_not_space k1' hx
              obtain ⟨t, ht⟩ := pystrip_head_eq kv.1 c cs hk1
              have hcx : c = x := by
                rw [ht] at hlk
                exact (List.cons_eq_cons.mp hlk).1
              subst hcx
              have hsharp : ('#' == c) = false := by
                cases hcc : ('#' == c) with
                | false => rfl
                | true =>
                  exfalso
                  apply h2
                  rw [hdecomp, hkv1]
                  have : c = '#' := (eq_of_beq hcc).symm
                  subst this
                  simp [List.isPrefixOf]
              simp [List.isPrefixOf, hsharp]
        · intro hmem
          exact hnotmem (mem_pystrip hmem)

/-! ### Invariants of the dict folds in `save_env_vars` / `load_env_vars` -/

theorem dinsert_forall_prod {α : Type} (PK : Str → Prop) (PV : α → Prop)
    (m : List (Str × α)) (k : Str) (v : α)
    (hm : ∀ kv ∈ m, PK kv.1 ∧ PV kv.2) (hk : PK k) (hv : PV v) :
    ∀ x ∈ dinsert m k v, PK x.1 ∧ PV x.2 := by
  intro x hx
  unfold dinsert at hx
  by_cases hany : m.any (fun kv => kv.1 == k) = true
  · rw [if_pos hany] at hx
    obtain ⟨y, hy, hxy⟩ := List.mem_map.mp hx
    by_cases hyk : (y.1 == k) = true
    · rw [if_pos hyk] at hxy
      rw [← hxy]
      exact ⟨(hm y hy).1, hv⟩
    · rw [if_neg hyk] at hxy
      rw [← hxy]
      exact hm y hy
  · rw [if_neg hany] at hx
    rcases List.mem_append.mp hx with hx | hx
    · exact hm x hx
    · have hxkv : x = (k, v) := by simpa using hx
      rw [hxkv]
      exact ⟨hk, hv⟩

theorem dinsert_keys_nodup {α : Type} (m : List (Str × α)) (k : Str) (v : α)
    (h : (m.map Prod.fst).Nodup) : ((dinsert m k v).map Prod.fst).Nodup := by
  unfold dinsert
  by_cases hany : m.any (fun kv => kv.1 == k) = true
  · rw [if_pos hany]
    have hmap : (m.map (fun kv => if kv.1 == k then (kv.1, v) else kv)).map Prod.fst
        = m.map Prod.fst := by
      rw [List.map_map]
      apply List.map_congr_left
      intro y _
      simp only [Function.comp]
      by_cases hyk : (y.1 == k) = true
      · rw [if_pos hyk]
      · rw [if_neg hyk]
    rw [hmap]
    exact h
  · rw [if_neg hany]
    rw [List.map_append]
    apply List.Nodup.append h (List.nodup_singleton k)
    intro a ha hb
    have hak : a = k := by simpa using hb
    subst hak
    apply hany
    rw [List.any_eq_true]
    obtain ⟨y, hy, hya⟩ := List.mem_map.mp ha
    exact ⟨y, hy, by simp [hya]⟩

theorem parseEnvFile_forall (PK : Str → Prop) (PV : Str → Prop)
    (hline : ∀ line k w, parseEnvLine line = some (k, w) → PK k ∧ PV w) :
    ∀ (lines : List Str) (acc : List (Str × Str)),
    (∀ kv ∈ acc, PK kv.1 ∧ PV kv.2) →
    ∀ kv ∈ lines.foldl (fun m line =>
      match parseEnvLine line with
      | some kv => dinsert m kv.1 kv.2
      | none => m) acc, PK kv.1 ∧ PV kv.2 := by
  intro lines
  induction lines with
  | nil => intro acc hacc; exact hacc
  | cons l ls ih =>
    intro acc hacc
    cases hpl : parseEnvLine l with
    | none =>
      simp only [List.foldl_cons, hpl]
      exact ih acc hacc
    | some kv0 =>
      simp only [List.foldl_cons, hpl]
      exact ih _ (dinsert_forall_prod PK PV acc kv0.1 kv0.2 hacc
        (hline l kv0.1 kv0.2 (by rw [hpl])).1 (hline l kv0.1 kv0.2 (by rw [hpl])).2)

theorem parseEnvFold_keys_nodup : ∀ (lines : List Str) (acc : List (Str × Str)),
    (acc.map Prod.fst).Nodup →
    ((lines.foldl (fun m line =>
      match parseEnvLine line with
      | some kv => dinsert m kv.1 kv.2
      | none => m) acc).map Prod.fst).Nodup := by
  intro lines
  induction lines with
  | nil => intro acc hacc; exact hacc
  | cons l ls ih =>
    intro acc hacc
    cases hpl : parseEnvLine l with
    | none =>
      simp only [List.foldl_cons, hpl]
      exact ih acc hacc
    | some kv0 =>
      simp only [List.foldl_cons, hpl]
      exact ih _ (dinsert_keys_nodup acc kv0.1 kv0.2 hacc)

theorem save_fold_forall (PK : Str → Prop) (PV : Str → Prop) :
    ∀ (sub : List (Str × Str)) (m : List (Str × Str)),
    (∀ kv ∈ sub, PK kv.1 ∧ PV kv.2) →
    (∀ kv ∈ m, PK kv.1 ∧ PV kv.2) →
    ∀ kv ∈ sub.foldl (fun m kv => if kv.2 ≠ [] then dinsert m kv.1 kv.2 else m) m,
      PK kv.1 ∧ PV kv.2 := by
  intro sub
  induction sub with
  | nil => intro m _ hm; exact hm
  | cons kv0 sub' ih =>
    intro m hsub hm
    simp only [List.foldl_cons]
    by_cases hv : kv0.2 ≠ []
    · rw [if_pos hv]
      exact ih _ (fun x hx => hsub x (List.mem_cons_of_mem _ hx))
        (dinsert_forall_prod PK PV m kv0.1 kv0.2 hm
          (hsub kv0 (List.mem_cons_self _ _)).1 (hsub kv0 (List.mem_cons_self _ _)).2)
    · rw [if_neg hv]
      exact ih _ (fun x hx => hsub x (List.mem_cons_of_mem _ hx)) hm

theorem save_fold_nodup : ∀ (sub : List (Str × Str)) (m : List (Str × Str)),
    (m.map Prod.fst).Nodup →
    ((sub.foldl (fun m kv => if kv.2 ≠ [] then dinsert m kv.1 kv.2 else m) m).map
      Prod.fst).Nodup := by
  intro sub
  induction sub with
  | nil => intro m hm; exact hm
  | cons kv0 sub' ih =>
    intro m hm
    simp only [List.foldl_cons]
    by_cases hv : kv0.2 ≠ []
    · rw [if_pos hv]
      exact ih _ (dinsert_keys_nodup m kv0.1 kv0.2 hm)
    · rw [if_neg hv]
      exact ih _ hm

/-- Submitting only empty values for key `K` leaves `K`'s stored binding
untouched by the merge fold. -/
theorem save_fold_skip (K : Str) : ∀ (sub : List (Str × Str)) (m : List (Str × Str)),
    (∀ kv ∈ sub, kv.1 = K → kv.2 = []) →
    dget? (sub.foldl (fun m kv => if kv.2 ≠ [] then dinsert m kv.1 kv.2 else m) m) K
      = dget? m K := by
  intro sub
  induction sub with
  | nil => intro m _; rfl
  | cons kv0 sub' ih =>
    intro m h
    simp only [List.foldl_cons]
    by_cases hv : kv0.2 ≠ []
    · rw [if_pos hv]
      have hne : kv0.1 ≠ K := fun he => hv (h kv0 (List.mem_cons_self _ _) he)
      rw [ih _ (fun x hx hk => h x (List.mem_cons_of_mem _ hx) hk)]
      exact dget?_dinsert_ne m kv0.1 K kv0.2 hne
    · rw [if_neg hv]
      exact ih _ (fun x hx hk => h x (List.mem_cons_of_mem _ hx) hk)

/-- A non-empty submitted value for `K` wins the merge fold. -/
theorem save_fold_mem (K V : Str) (hV : V ≠ []) :
    ∀ (sub : List (Str × Str)) (m : List (Str × Str)),
    (K, V) ∈ sub → (sub.map Prod.fst).Nodup →
    dget? (sub.foldl (fun m kv => if kv.2 ≠ [] then dinsert m kv.1 kv.2 else m) m) K
      = some V := by
  intro sub
  induction sub with
  | nil => intro m hmem _; simp at hmem
  | cons kv0 sub' ih =>
    intro m hmem hnd
    rw [List.map_cons, List.nodup_cons] at hnd
    simp only [List.foldl_cons]
    rcases List.mem_cons.mp hmem with heq | hmem'
    · have h1 : kv0.1 = K := by rw [← heq]
      have h2 : kv0.2 = V := by rw [← heq]
      have hv : kv0.2 ≠ [] := by rw [h2]; exact hV
      rw [if_pos hv, h1, h2]
      have hskip : ∀ x ∈ sub', x.1 = K → x.2 = [] := by
        intro x hx hxk
        exact absurd (by rw [h1, ← hxk]; exact List.mem_map_of_mem Prod.fst hx) hnd.1
      rw [save_fold_skip K sub' (dinsert m K V) hskip]
      exact dget?_dinsert_self m K V
    · have hk0 : kv0.1 ≠ K := fun he =>
        hnd.1 (by rw [he]; exact List.mem_map_of_mem Prod.fst hmem')
      by_cases hv : kv0.2 ≠ []
      · rw [if_pos hv]
        exact ih _ hmem' hnd.2
      · rw [if_neg hv]
        exact ih _ hmem' hnd.2

/-- `dotenv.load_dotenv` with `override=False` never changes a key that
is already present in the environment. -/
theorem dotenv_fold_present (K : Str) : ∀ (entries : List (Str × Str))
    (env : List (Str × Str)), (dget? env K).isSome = true →
    dget? (entries.foldl
      (fun m kv => if m.any (fun e => e.1 == kv.1) then m else m ++ [kv]) env) K
      = dget? env K := by
  intro entries
  induction entries with
  | nil => intro env _; rfl
  | cons kv es ih =>
    intro env hs
    simp only [List.foldl_cons]
    by_cases hany : env.any (fun e => e.1 == kv.1) = true
    · rw [if_pos hany]
      exact ih env hs
    · rw [if_neg hany]
      have hkne : kv.1 ≠ K := fun he =>
        hany (by rw [he]; exact dget?_isSome_mem_keys env K hs)
      have hpres : dget? (env ++ [kv]) K = dget? env K :=
        dget?_append_single_ne env kv.1 K kv.2 hkne
      rw [ih _ (by rw [hpres]; exact hs), hpres]

theorem dget?_names_map (f : Str → Str) : ∀ (names : List Str) (K : Str), K ∈ names →
    dget? (names.map (fun n => (n, f n))) K = some (f K) := by
  intro names
  induction names with
  | nil => intro K hK; simp at hK
  | cons n ns ih =>
    intro K hK
    rw [List.map_cons, dget?_cons]
    by_cases he : n = K
    · subst he
      rw [if_pos (by simp)]
    · rw [if_neg (by simp [he])]
      exact ih K (by
        rcases List.mem_cons.mp hK with h | h
        · exact absurd h.symm he
        · exact h)

theorem nodup_keys_unique {α : Type} : ∀ (m : List (Str × α)),
    (m.map Prod.fst).Nodup → ∀ (a : Str) (b c : α), (a, b) ∈ m → (a, c) ∈ m → b = c := by
  intro m
  induction m with
  | nil => intro _ a b c h1 _; simp at h1
  | cons kv m' ih =>
    intro hnd a b c h1 h2
    rw [List.map_cons, List.nodup_cons] at hnd
    rcases List.mem_cons.mp h1 with h1 | h1
    · rcases List.mem_cons.mp h2 with h2 | h2
      · simpa using h1.trans h2.symm
      · exact absurd (by
          rw [← h1]
          show a ∈ m'.map Prod.fst
          exact List.mem_map_of_mem Prod.fst h2) hnd.1
    · rcases List.mem_cons.mp h2 with h2 | h2
      · exact absurd (by
          rw [← h2]
          show a ∈ m'.map Prod.fst
          exact List.mem_map_of_mem Prod.fst h1) hnd.1
      · exact ih hnd.2 a b c h1 h2

/-- Rewritten lines whose keys all differ from `K` do not disturb `K`
when the file is re-read. -/
theorem reparse_fold_preserve (K : Str) : ∀ (m : List (Str × Str))
    (acc : List (Str × Str)),
    (∀ kv ∈ m, pystrip kv.1 = kv.1 ∧ ¬ (['#'].isPrefixOf kv.1 = true) ∧ '=' ∉ kv.1) →
    (∀ kv ∈ m, kv.1 ≠ K) →
    dget? ((m.map (fun kv => kv.1 ++ '=' :: kv.2)).foldl (fun m line =>
      match parseEnvLine line with
      | some kv => dinsert m kv.1 kv.2
      | none => m) acc) K = dget? acc K := by
  intro m
  induction m with
  | nil => intro acc _ _; rfl
  | cons kv0 m' ih =>
    intro acc hgood hne
    obtain ⟨hg1, hg2, hg3⟩ := hgood kv0 (List.mem_cons_self _ _)
    simp only [List.map_cons, List.foldl_cons,
      parseEnvLine_written kv0.1 kv0.2 hg1 hg2 hg3]
    rw [ih _ (fun x hx => hgood x (List.mem_cons_of_mem _ hx))
      (fun x hx => hne x (List.mem_cons_of_mem _ hx))]
    exact dget?_dinsert_ne acc kv0.1 K _ (hne kv0 (List.mem_cons_self _ _))

/-- Re-reading the rewritten file recovers each stored entry (with the
value stripped once more, a no-op for already-stripped values). -/
theorem parseEnvFile_write_get (K W : Str) : ∀ (m : List (Str × Str))
    (acc : List (Str × Str)),
    (∀ kv ∈ m, pystrip kv.1 = kv.1 ∧ ¬ (['#'].isPrefixOf kv.1 = true) ∧ '=' ∉ kv.1) →
    (m.map Prod.fst).Nodup →
    (K, W) ∈ m →
    dget? ((m.map (fun kv => kv.1 ++ '=' :: kv.2)).foldl (fun m line =>
      match parseEnvLine line with
      | some kv => dinsert m kv.1 kv.2
      | none => m) acc) K = some (pystrip (rstrip W)) := by
  intro m
  induction m with
  | nil => intro acc _ _ hmem; simp at hmem
  | cons kv0 m' ih =>
    intro acc hgood hnd hmem
    obtain ⟨hg1, hg2, hg3⟩ := hgood kv0 (List.mem_cons_self _ _)
    rw [List.map_cons, List.nodup_cons] at hnd
    simp only [List.map_cons, List.foldl_cons,
      parseEnvLine_written kv0.1 kv0.2 hg1 hg2 hg3]
    rcases List.mem_cons.mp hmem with heq | hmem'
    · have h1 : kv0.1 = K := by rw [← heq]
      have h2 : kv0.2 = W := by rw [← heq]
      rw [reparse_fold_preserve K m' _
        (fun x hx => hgood x (List.mem_cons_of_mem _ hx))
        (fun x hx hxk => hnd.1 (by rw [h1, ← hxk]; exact List.mem_map_of_mem Prod.fst hx))]
      rw [h1, h2]
      exact dget?_dinsert_self acc K (pystrip (rstrip W))
    · have hk0 : kv0.1 ≠ K := fun he =>
        hnd.1 (by rw [he]; exact List.mem_map_of_mem Prod.fst hmem')
      exact ih _ (fun x hx => hgood x (List.mem_cons_of_mem _ hx)) hnd.2 hmem'

theorem parseEnvFile_eq_fold (lines : List Str) :
    parseEnvFile lines = lines.foldl (fun m line =>
      match parseEnvLine line with
      | some kv => dinsert m kv.1 kv.2
      | none => m) [] := rfl

theorem save_env_vars_fst (file : List Str) (environ sub : List (Str × Str)) :
    (save_env_vars file environ sub).1 =
      (sub.foldl (fun m kv => if kv.2 ≠ [] then dinsert m kv.1 kv.2 else m)
        (parseEnvFile file)).map (fun kv => kv.1 ++ '=' :: kv.2) := rfl

theorem save_env_vars_snd (file : List Str) (environ sub : List (Str × Str)) :
    (save_env_vars file environ sub).2 =
      sub.foldl (fun m kv => if kv.2 ≠ [] then dinsert m kv.1 kv.2 else m) environ := rfl

theorem load_env_vars_eq (file : List Str) (environ : List (Str × Str)) :
    load_env_vars file environ = envGroupNames.map (fun n =>
      (n, (dget? ((parseEnvFile file).foldl
        (fun m kv => if m.any (fun e => e.1 == kv.1) then m else m ++ [kv]) environ)
        n).getD [])) := rfl

theorem keyline_not_comment (k v : Str) (hkh : ¬ (['#'].isPrefixOf k = true)) :
    (['#'].isPrefixOf (k ++ '=' :: v)) = false := by
  cases k with
  | nil => simp [List.isPrefixOf]
  | cons c k' =>
    have hc : ('#' == c) = false := by
      cases hcc : ('#' == c) with
      | false => rfl
      | true => exact absurd (by simp [List.isPrefixOf, hcc]) hkh
    simp [List.isPrefixOf, hc]

theorem parseEnvFile_entry_good (file : List Str) :
    ∀ kv ∈ parseEnvFile file,
      (pystrip kv.1 = kv.1 ∧ ¬ (['#'].isPrefixOf kv.1 = true) ∧ '=' ∉ kv.1) ∧
      pystrip kv.2 = kv.2 := by
  intro kv hkv
  rw [parseEnvFile_eq_fold] at hkv
  exact parseEnvFile_forall
    (fun k => pystrip k = k ∧ ¬ (['#'].isPrefixOf k = true) ∧ '=' ∉ k)
    (fun w => pystrip w = w)
    (fun line k w h => parseEnvLine_good line k w h)
    file [] (by simp) kv hkv

theorem parseEnvFile_keys_nodup (file : List Str) :
    ((parseEnvFile file).map Prod.fst).Nodup := by
  rw [parseEnvFile_eq_fold]
  exact parseEnvFold_keys_nodup file [] (by simp)

/-- The heart of the frame property: the rewritten file, when re-read,
still binds `K` to its old stored value `W` whenever every submission
for `K` was empty. -/
theorem save_preserves_stored (file : List Str) (environ sub : List (Str × Str))
    (K W : Str)
    (hgoodsub : ∀ kv ∈ sub, pystrip kv.1 = kv.1 ∧
      ¬ (['#'].isPrefixOf kv.1 = true) ∧ '=' ∉ kv.1)
    (hskip : ∀ kv ∈ sub, kv.1 = K → kv.2 = [])
    (hW : dget? (parseEnvFile file) K = some W) :
    dget? (parseEnvFile (save_env_vars file environ sub).1) K = some W := by
  have hex : dget? (sub.foldl
      (fun m kv => if kv.2 ≠ [] then dinsert m kv.1 kv.2 else m)
      (parseEnvFile file)) K = some W := by
    rw [save_fold_skip K sub (parseEnvFile file) hskip]
    exact hW
  have hgoodex : ∀ kv ∈ (sub.foldl
      (fun m kv => if kv.2 ≠ [] then dinsert m kv.1 kv.2 else m)
      (parseEnvFile file)),
      pystrip kv.1 = kv.1 ∧ ¬ (['#'].isPrefixOf kv.1 = true) ∧ '=' ∉ kv.1 := by
    intro kv hkv
    exact (save_fold_forall
      (fun k => pystrip k = k ∧ ¬ (['#'].isPrefixOf k = true) ∧ '=' ∉ k)
      (fun _ => True) sub (parseEnvFile file)
      (fun x hx => ⟨hgoodsub x hx, trivial⟩)
      (fun x hx => ⟨(parseEnvFile_entry_good file x hx).1, trivial⟩)
      kv hkv).1
  have hndex : ((sub.foldl
      (fun m kv => if kv.2 ≠ [] then dinsert m kv.1 kv.2 else m)
      (parseEnvFile file)).map Prod.fst).Nodup :=
    save_fold_nodup sub (parseEnvFile file) (parseEnvFile_keys_nodup file)
  have hmemex : (K, W) ∈ (sub.foldl
      (fun m kv => if kv.2 ≠ [] then dinsert m kv.1 kv.2 else m)
      (parseEnvFile file)) := dget?_eq_some_mem _ _ _ hex
  have hWs : pystrip W = W :=
    (parseEnvFile_entry_good file (K, W) (dget?_eq_some_mem _ _ _ hW)).2
  rw [save_env_vars_fst, parseEnvFile_eq_fold]
  rw [parseEnvFile_write_get K W _ [] hgoodex hndex hmemex]
  rw [rstrip_eq_self_of_pystrip hWs, hWs]

/-- C7: saving then reloading configuration round-trips.  For a
configured name `K` submitted with a non-empty value `V`,
`save_env_vars` followed by `load_env_vars` yields `V` for `K`; and a
key `K2` whose only submission is empty keeps its previously stored
value `W` in the rewritten file.  Submitted keys are assumed to be
well-formed (already stripped, not starting with `#`, containing no
`=`), as is the case for the fixed variable names the app submits. -/
theorem env_round_trip (file : List Str) (environ sub : List (Str × Str))
    (K V K2 W : Str)
    (hgoodsub : ∀ kv ∈ sub, pystrip kv.1 = kv.1 ∧
      ¬ (['#'].isPrefixOf kv.1 = true) ∧ '=' ∉ kv.1)
    (hnd : (sub.map Prod.fst).Nodup)
    (hK : K ∈ envGroupNames)
    (hmem : (K, V) ∈ sub) (hV : V ≠ [])
    (hmem2 : (K2, []) ∈ sub)
    (hW : dget? (parseEnvFile file) K2 = some W) :
    dget? (load_env_vars (save_env_vars file environ sub).1
      (save_env_vars file environ sub).2) K = some V ∧
    dget? (parseEnvFile (save_env_vars file environ sub).1) K2 = some W := by
  constructor
  · have henv : dget? (save_env_vars file environ sub).2 K = some V := by
      rw [save_env_vars_snd]
      exact save_fold_mem K V hV sub environ hmem hnd
    rw [load_env_vars_eq]
    rw [dget?_names_map (fun n =>
      (dget? ((parseEnvFile (save_env_vars file environ sub).1).foldl
        (fun m kv => if m.any (fun e => e.1 == kv.1) then m else m ++ [kv])
        ((save_env_vars file environ sub).2)) n).getD [])
      envGroupNames K hK]
    rw [dotenv_fold_present K (parseEnvFile (save_env_vars file environ sub).1)
      ((save_env_vars file environ sub).2) (by rw [henv]; rfl)]
    rw [henv]
    rfl
  · have hskip : ∀ kv ∈ sub, kv.1 = K2 → kv.2 = [] := by
      intro x hx hxk
      have hx' : (K2, x.2) ∈ sub := by rw [← hxk]; exact hx
      exact nodup_keys_unique sub hnd K2 x.2 [] hx' hmem2
    exact save_preserves_stored file environ sub K2 W hgoodsub hskip hW

/-- Witness for `env_round_trip`: submitting a new `OPENAI_API_KEY` and
an empty `GOOGLE_API_KEY` over a file that stores `GOOGLE_API_KEY=g`. -/
theorem env_round_trip_witness :
    dget? (load_env_vars
        (save_env_vars [str "GOOGLE_API_KEY=g"] []
          [(str "OPENAI_API_KEY", str "sk"), (str "GOOGLE_API_KEY", [])]).1
        (save_env_vars [str "GOOGLE_API_KEY=g"] []
          [(str "OPENAI_API_KEY", str "sk"), (str "GOOGLE_API_KEY", [])]).2)
      (str "OPENAI_API_KEY") = some (str "sk") ∧
    dget? (parseEnvFile
        (save_env_vars [str "GOOGLE_API_KEY=g"] []
          [(str "OPENAI_API_KEY", str "sk"), (str "GOOGLE_API_KEY", [])]).1)
      (str "GOOGLE_API_KEY") = some (str "g") :=
  env_round_trip [str "GOOGLE_API_KEY=g"] []
    [(str "OPENAI_API_KEY", str "sk"), (str "GOOGLE_API_KEY", [])]
    (str "OPENAI_API_KEY") (str "sk") (str "GOOGLE_API_KEY") (str "g")
    (by decide) (by decide) (by decide) (by decide) (by decide) (by decide)
    (by decide)

/-- C10: `save_env_vars` rewrites the dotfile keeping only `key=value`
pairs: every line of the rewritten file contains `=`, strips to a
non-blank, non-comment line (so any blank or `#`-comment lines of the
old file are discarded), while every stored entry not being updated
re-reads unchanged from the rewritten file. -/
theorem save_env_vars_rewrite (file : List Str) (environ sub : List (Str × Str))
    (hgoodsub : ∀ kv ∈ sub, pystrip kv.1 = kv.1 ∧
      ¬ (['#'].isPrefixOf kv.1 = true) ∧ '=' ∉ kv.1) :
    (∀ line ∈ (save_env_vars file environ sub).1,
      '=' ∈ line ∧ pystrip line ≠ [] ∧
      ¬ (['#'].isPrefixOf (pystrip line) = true)) ∧
    (∀ K W, dget? (parseEnvFile file) K = some W →
      (∀ kv ∈ sub, kv.1 = K → kv.2 = []) →
      dget? (parseEnvFile (save_env_vars file environ sub).1) K = some W) := by
  constructor
  · intro line hline
    rw [save_env_vars_fst] at hline
    obtain ⟨kv, hkv, hlineeq⟩ := List.mem_map.mp hline
    have hgood := (save_fold_forall
      (fun k => pystrip k = k ∧ ¬ (['#'].isPrefixOf k = true) ∧ '=' ∉ k)
      (fun _ => True) sub (parseEnvFile file)
      (fun x hx => ⟨hgoodsub x hx, trivial⟩)
      (fun x hx => ⟨(parseEnvFile_entry_good file x hx).1, trivial⟩)
      kv hkv).1
    obtain ⟨hg1, hg2, hg3⟩ := hgood
    subst hlineeq
    refine ⟨?_, ?_, ?_⟩
    · show '=' ∈ kv.1 ++ '=' :: kv.2
      exact List.mem_append.mpr (Or.inr (List.mem_cons_self _ _))
    · show pystrip (kv.1 ++ '=' :: kv.2) ≠ []
      rw [pystrip_keyline kv.1 kv.2 hg1]
      simp
    · show ¬ (['#'].isPrefixOf (pystrip (kv.1 ++ '=' :: kv.2)) = true)
      rw [pystrip_keyline kv.1 kv.2 hg1,
        keyline_not_comment kv.1 (rstrip kv.2) hg2]
      simp
  · intro K W hW hskip
    exact save_preserves_stored file environ sub K W hgoodsub hskip hW

/-- Witness for `save_env_vars_rewrite`: a file with a comment line, a
blank line and one stored entry, saved with one new key and one empty
submission. -/
theorem save_env_vars_rewrite_witness :
    (∀ line ∈ (save_env_vars [str "# note", [], str "GOOGLE_API_KEY=g"] []
        [(str "OPENAI_API_KEY", str "sk"), (str "GOOGLE_API_KEY", [])]).1,
      '=' ∈ line ∧ pystrip line ≠ [] ∧
      ¬ (['#'].isPrefixOf (pystrip line) = true)) ∧
    (∀ K W, dget? (parseEnvFile [str "# note", [], str "GOOGLE_API_KEY=g"]) K
        = some W →
      (∀ kv ∈ [(str "OPENAI_API_KEY", str "sk"), (str "GOOGLE_API_KEY", ([] : Str))],
        kv.1 = K → kv.2 = []) →
      dget? (parseEnvFile
        (save_env_vars [str "# note", [], str "GOOGLE_API_KEY=g"] []
          [(str "OPENAI_API_KEY", str "sk"), (str "GOOGLE_API_KEY", [])]).1) K
        = some W) :=
  save_env_vars_rewrite [str "# note", [], str "GOOGLE_API_KEY=g"] []
    [(str "OPENAI_API_KEY", str "sk"), (str "GOOGLE_API_KEY", [])]
    (by decide)

end Owl
